import Mathlib

/-!
Verification development for `scripts/build_notes.py` of the
`inflammaging-notes` repository: a shallow embedding of the script's
Markdown-to-HTML engine (block parser, HTML escaping, front-matter
extraction, slug generation, date sort keys), together with theorems
settling the specification claims.

Conventions of the embedding:
* Python `str` values are Lean `String`s, with all character-level work
  done on `String.data` (`List Char`).
* Python's regular expressions used by the script are deterministic on
  the patterns involved; each is translated to an explicit matcher
  whose backtracking behaviour is reproduced where it matters.
* Python whitespace (`str.strip`, `\s`) is modelled by `pyWs`, covering
  the ASCII whitespace characters plus the common Unicode
  `White_Space` code points.
-/

namespace BuildNotes

/-- Whitespace as recognized by Python's `str.strip` / regex `\s`
(ASCII whitespace plus Unicode `White_Space` code points). -/
def pyWs (c : Char) : Bool :=
  c.toNat = 32 || c.toNat = 9 || c.toNat = 10 || c.toNat = 13 ||
  c.toNat = 0x0b || c.toNat = 0x0c ||
  c.toNat = 0x85 || c.toNat = 0xa0 || c.toNat = 0x1680 ||
  (0x2000 ≤ c.toNat && c.toNat ≤ 0x200a) ||
  c.toNat = 0x2028 || c.toNat = 0x2029 || c.toNat = 0x202f || c.toNat = 0x205f ||
  c.toNat = 0x3000

/-- ASCII decimal digit test (Python's regex `\d` and `str.isdigit`
restricted to ASCII; the inputs involved are ASCII). -/
def pyDigit (c : Char) : Bool := 48 ≤ c.toNat && c.toNat ≤ 57

/-- The apostrophe character (U+0027). -/
def squote : Char := Char.ofNat 39

/-- Drop trailing characters satisfying `p` (the list analogue of
Python's `str.rstrip`), structured for easy head-preservation proofs. -/
def rdropWhile (p : Char → Bool) : List Char → List Char
  | [] => []
  | c :: rest =>
    match rdropWhile p rest with
    | [] => if p c then [] else [c]
    | r => c :: r

/-- `str.rstrip()` on character lists. -/
def rstripL (l : List Char) : List Char := rdropWhile pyWs l

/-- `str.strip()` on character lists (leading whitespace dropped first,
then trailing; the order does not affect the result). -/
def stripL (l : List Char) : List Char := rstripL (l.dropWhile pyWs)

/-- `str.rstrip()`. -/
def pyRStrip (s : String) : String := ⟨rstripL s.data⟩

/-- `str.strip()`. -/
def pyStrip (s : String) : String := ⟨stripL s.data⟩

/-- `str.lstrip()`. -/
def pyLStrip (s : String) : String := ⟨s.data.dropWhile pyWs⟩

/-- `str.strip(chars)` for an explicit character predicate. -/
def pyStripChars (p : Char → Bool) (s : String) : String :=
  ⟨rdropWhile p (s.data.dropWhile p)⟩

/-- Line-break characters recognized by Python's `str.splitlines`
(besides the `\r\n` pair handled separately). -/
def pyLineBreak (c : Char) : Bool :=
  c = '\n' || c = '\r' || c.toNat = 0x0b || c.toNat = 0x0c ||
  c.toNat = 0x1c || c.toNat = 0x1d || c.toNat = 0x1e || c.toNat = 0x85 ||
  c.toNat = 0x2028 || c.toNat = 0x2029

/-- Helper for `pySplitlines`: split a character list at line breaks,
treating `\r\n` as a single break; `acc` holds the current line
reversed. -/
def splitlinesAux : List Char → List Char → List String
  | [], acc => if acc.isEmpty then [] else [⟨acc.reverse⟩]
  | '\r' :: '\n' :: rest, acc => ⟨acc.reverse⟩ :: splitlinesAux rest []
  | c :: rest, acc =>
    if pyLineBreak c then ⟨acc.reverse⟩ :: splitlinesAux rest []
    else splitlinesAux rest (c :: acc)

/-- `str.splitlines()` (without keeping line-break characters).
A trailing line break does not produce a final empty line. -/
def pySplitlines (s : String) : List String := splitlinesAux s.data []

/-- `"\n".join(parts)`. -/
def joinNl : List String → String
  | [] => ""
  | [x] => x
  | x :: xs => x ++ "\n" ++ joinNl xs

/-- `" ".join(parts)`. -/
def joinSp : List String → String
  | [] => ""
  | [x] => x
  | x :: xs => x ++ " " ++ joinSp xs

/-- Split a character list at every character satisfying `p`
(`re.split` on a single-character class: empty pieces are kept).
`acc` holds the current piece reversed. -/
def splitAnyAux (p : Char → Bool) : List Char → List Char → List String
  | [], acc => [⟨acc.reverse⟩]
  | c :: rest, acc =>
    if p c then ⟨acc.reverse⟩ :: splitAnyAux p rest []
    else splitAnyAux p rest (c :: acc)

/-- `s.split(sep)`-style splitting on a character predicate. -/
def splitAny (p : Char → Bool) (s : String) : List String :=
  splitAnyAux p s.data []

/-- `re.split(r"[,，、]", s)`: split on the ASCII comma, the fullwidth
comma and the ideographic comma. -/
def commaSplit (s : String) : List String :=
  splitAny (fun c => c = ',' || c.toNat = 0xff0c || c.toNat = 0x3001) s

/-- Python `html.escape(s, quote=True)` on a single character:
the five replaced characters and their entities.  (The sequential
`str.replace` calls in `html.escape` are equivalent to this
character-wise map, since the ampersand pass runs first and the
entities introduced later are never rescanned.) -/
def escCharL (c : Char) : List Char :=
  if c = '&' then ['&', 'a', 'm', 'p', ';']
  else if c = '<' then ['&', 'l', 't', ';']
  else if c = '>' then ['&', 'g', 't', ';']
  else if c = '"' then ['&', 'q', 'u', 'o', 't', ';']
  else if c = squote then ['&', '#', 'x', '2', '7', ';']
  else [c]

/-- `html.escape` on character lists. -/
def htmlEscapeL (l : List Char) : List Char := (l.map escCharL).flatten

/-- `html.escape(s)` (with the default `quote=True`). -/
def htmlEscape (s : String) : String := ⟨htmlEscapeL s.data⟩

/-- A character list is "fully escaped" when it contains no `<` or `>`
and every `&` begins one of the five entities that `htmlEscape`
produces. -/
def escapedOkL : List Char → Bool
  | [] => true
  | c :: rest =>
    if c = '<' then false
    else if c = '>' then false
    else if c = '&' then
      if ['a', 'm', 'p', ';'].isPrefixOf rest then escapedOkL (rest.drop 4)
      else if ['l', 't', ';'].isPrefixOf rest then escapedOkL (rest.drop 3)
      else if ['g', 't', ';'].isPrefixOf rest then escapedOkL (rest.drop 3)
      else if ['q', 'u', 'o', 't', ';'].isPrefixOf rest then escapedOkL (rest.drop 5)
      else if ['#', 'x', '2', '7', ';'].isPrefixOf rest then escapedOkL (rest.drop 5)
      else false
    else escapedOkL rest
termination_by l => l.length
decreasing_by all_goals simp only [List.length_drop, List.length_cons]; omega

theorem escapedOkL_escCharL_append (c : Char) (rest : List Char)
    (h : escapedOkL rest = true) : escapedOkL (escCharL c ++ rest) = true := by
  by_cases h1 : c = '&'
  · subst h1
    have hform : escCharL '&' = ['&', 'a', 'm', 'p', ';'] := by decide
    rw [hform]
    simpa [escapedOkL, List.isPrefixOf] using h
  by_cases h2 : c = '<'
  · subst h2
    have hform : escCharL '<' = ['&', 'l', 't', ';'] := by decide
    rw [hform]
    simpa [escapedOkL, List.isPrefixOf] using h
  by_cases h3 : c = '>'
  · subst h3
    have hform : escCharL '>' = ['&', 'g', 't', ';'] := by decide
    rw [hform]
    simpa [escapedOkL, List.isPrefixOf] using h
  by_cases h4 : c = '"'
  · subst h4
    have hform : escCharL '"' = ['&', 'q', 'u', 'o', 't', ';'] := by decide
    rw [hform]
    simpa [escapedOkL, List.isPrefixOf] using h
  by_cases h5 : c = squote
  · subst h5
    have hform : escCharL squote = ['&', '#', 'x', '2', '7', ';'] := by decide
    rw [hform]
    simpa [escapedOkL, List.isPrefixOf] using h
  · have hform : escCharL c = [c] := by simp [escCharL, h1, h2, h3, h4, h5]
    rw [hform]
    simpa [escapedOkL, h1, h2, h3] using h

/-- Every string produced by `htmlEscape` is fully escaped. -/
theorem escapedOkL_htmlEscapeL (l : List Char) : escapedOkL (htmlEscapeL l) = true := by
  induction l with
  | nil => simp [htmlEscapeL, escapedOkL]
  | cons c rest ih =>
    have hsplit : htmlEscapeL (c :: rest) = escCharL c ++ htmlEscapeL rest := by
      simp [htmlEscapeL]
    rw [hsplit]
    exact escapedOkL_escCharL_append _ _ ih

theorem lt_not_mem_escCharL (c : Char) : '<' ∉ escCharL c := by
  by_cases h1 : c = '&'
  · subst h1; simp [escCharL]
  by_cases h2 : c = '<'
  · subst h2; simp [escCharL]
  by_cases h3 : c = '>'
  · subst h3; simp [escCharL]
  by_cases h4 : c = '"'
  · subst h4; simp [escCharL]
  by_cases h5 : c = squote
  · subst h5
    have hform : escCharL squote = ['&', '#', 'x', '2', '7', ';'] := by decide
    rw [hform]; decide
  · have hform : escCharL c = [c] := by simp [escCharL, h1, h2, h3, h4, h5]
    rw [hform]
    simp
    exact fun hc => h2 hc.symm

/-- The output of `htmlEscape` never contains a raw `<` character (so
in particular it can never contain anchor markup). -/
theorem lt_not_mem_htmlEscapeL (l : List Char) : '<' ∉ htmlEscapeL l := by
  induction l with
  | nil => simp [htmlEscapeL]
  | cons c rest ih =>
    have hsplit : htmlEscapeL (c :: rest) = escCharL c ++ htmlEscapeL rest := by
      simp [htmlEscapeL]
    rw [hsplit]
    intro hmem
    rcases List.mem_append.mp hmem with hl | hr
    · exact lt_not_mem_escCharL c hl
    · exact ih hr

/-! ### Matchers for the regular expressions of the block parser

Each definition reproduces one of the module-level compiled patterns of
`build_notes.py` on (already `rstrip`-ped) single lines. -/

/-- `HORIZONTAL_RULE_PATTERN = ^\s*([-*_])\s*\1\s*\1\s*$`: exactly
three repetitions of the same rule character, optionally separated and
surrounded by whitespace. -/
def hrMatch (line : String) : Bool :=
  match line.data.dropWhile pyWs with
  | c1 :: rest1 =>
    if c1 = '-' || c1 = '*' || c1 = '_' then
      match rest1.dropWhile pyWs with
      | c2 :: rest2 =>
        if c2 = c1 then
          match rest2.dropWhile pyWs with
          | c3 :: rest3 => c3 = c1 && (rest3.dropWhile pyWs).isEmpty
          | [] => false
        else false
      | [] => false
    else false
  | [] => false

/-- `HEADING_PATTERN = ^(#{1,6})\s+(.*)$`: returns the heading level
(the number of leading `#`) and group 2 (the text after the greedy
whitespace run). -/
def headingMatch (line : String) : Option (Nat × String) :=
  let hashes := line.data.takeWhile (fun c => c = '#')
  let rest := line.data.dropWhile (fun c => c = '#')
  if 1 ≤ hashes.length && hashes.length ≤ 6 then
    match rest with
    | c :: _ => if pyWs c then some (hashes.length, ⟨rest.dropWhile pyWs⟩) else none
    | [] => none
  else none

/-- `BLOCKQUOTE_PATTERN = ^>\s?(.*)$`: returns group 1 (the text after
`>` and at most one whitespace character). -/
def bqMatch (line : String) : Option String :=
  match line.data with
  | c :: rest =>
    if c = '>' then
      match rest with
      | d :: rest2 => if pyWs d then some ⟨rest2⟩ else some ⟨rest⟩
      | [] => some ""
    else none
  | [] => none

/-- `LIST_ITEM_PATTERN = ^\s*([*+-]|\d+[.)])\s+`: returns group 1
(the marker) and the text after the end of the match (after the greedy
whitespace run). -/
def listMatch (line : String) : Option (String × String) :=
  match line.data.dropWhile pyWs with
  | c :: rest =>
    if c = '*' || c = '+' || c = '-' then
      match rest with
      | d :: _ => if pyWs d then some (⟨[c]⟩, ⟨rest.dropWhile pyWs⟩) else none
      | [] => none
    else if pyDigit c then
      let digs := (c :: rest).takeWhile pyDigit
      match (c :: rest).dropWhile pyDigit with
      | p :: rest2 =>
        if p = '.' || p = ')' then
          match rest2 with
          | d :: _ =>
            if pyWs d then some (⟨digs ++ [p]⟩, ⟨rest2.dropWhile pyWs⟩) else none
          | [] => none
        else none
      | [] => none
    else none
  | [] => none

/-- `TABLE_ROW_PATTERN = ^\s*\|(.+)\|\s*$`: the stripped line starts
and ends with `|` and has at least one character in between. -/
def tableRowMatch (line : String) : Bool :=
  match stripL line.data with
  | c :: rest => c = '|' && decide (2 ≤ rest.length) && (rest.getLast? == some '|')
  | [] => false

/-- `TABLE_SEPARATOR_PATTERN = ^\s*\|[\s\-:|]+\|\s*$` /
`is_table_separator`: the stripped line starts and ends with `|`, has
at least one character in between, and every character belongs to the
separator class (whitespace, `-`, `:`, `|`). -/
def is_table_separator (line : String) : Bool :=
  match stripL line.data with
  | c :: rest =>
    c = '|' && decide (2 ≤ rest.length) && (rest.getLast? == some '|') &&
      rest.all (fun c => pyWs c || c = '-' || c = ':' || c = '|')
  | [] => false

/-- `str.split(sep)` for a single separator character; `acc` holds the
current piece reversed. -/
def splitCharAux (sep : Char) : List Char → List Char → List String
  | [], acc => [⟨acc.reverse⟩]
  | c :: rest, acc =>
    if c = sep then ⟨acc.reverse⟩ :: splitCharAux sep rest []
    else splitCharAux sep rest (c :: acc)

/-- `str.split(sep)` on a single-character separator. -/
def splitChar (s : String) (sep : Char) : List String :=
  splitCharAux sep s.data []

/-- `parse_table_row`: cell texts of a pipe-delimited row (the stripped
line is split on `|`, the first and last pieces are discarded, each
cell is stripped); returns `[]` when the stripped line does not start
with `|`. -/
def parse_table_row (line : String) : List String :=
  match stripL line.data with
  | c :: rest =>
    if c = '|' then (((splitCharAux '|' (c :: rest) []).drop 1).dropLast).map pyStrip
    else []
  | [] => []

/-- Decimal digits of `n`, most significant first, computed with a fuel
argument so that the definition is structurally recursive (`fuel ≥
n` suffices; callers pass `n + 1`). -/
def decDigitsAux : Nat → Nat → List Char
  | 0, _ => []
  | fuel + 1, n =>
    if n < 10 then [Char.ofNat (48 + n)]
    else decDigitsAux fuel (n / 10) ++ [Char.ofNat (48 + n % 10)]

/-- `str(n)` for a natural number (CPython's decimal representation of
a nonnegative `int`). -/
def decRepr (n : Nat) : String := ⟨decDigitsAux (n + 1) n⟩

/-- `f"{n:03d}"` for a natural number: the decimal representation
zero-padded on the left to at least three characters. -/
def fmt03 (n : Nat) : String :=
  ⟨List.replicate (3 - (decRepr n).length) '0' ++ (decRepr n).data⟩


/-- `"ol" if marker[0].isdigit() else "ul"`. -/
def listTypeOf (marker : String) : String :=
  if pyDigit marker.front then "ol" else "ul"

/-! ### The block parser state machine (`simple_markdown_to_html`) -/

/-- The mutable state of `simple_markdown_to_html`'s line loop:
emitted HTML parts, the open-list stack, the open-blockquote flag, the
paragraph buffer, the accumulated table rows, and the in-table flag. -/
structure MDState where
  parts : List String
  listStack : List String
  inBlockquote : Bool
  paragraph : List String
  tableRows : List (List String)
  inTable : Bool
deriving Repr, DecidableEq

/-- The initial state of the line loop. -/
def initState : MDState :=
  { parts := []
    listStack := []
    inBlockquote := false
    paragraph := []
    tableRows := []
    inTable := false }

/-- `flush_paragraph`: the parts it appends (nothing when the buffer is
empty or joins/strips to the empty string; otherwise one escaped
`<p>` element). -/
def flushParagraphParts (pl : List String) : List String :=
  if pl.isEmpty then []
  else
    let paragraph := pyStrip (joinSp pl)
    if paragraph = "" then [] else ["<p>" ++ htmlEscape paragraph ++ "</p>"]

/-- `flush_paragraph` as a state transformer (the buffer is cleared). -/
def flushParagraphSt (st : MDState) : MDState :=
  { st with parts := st.parts ++ flushParagraphParts st.paragraph, paragraph := [] }

/-- One `<td>` body row of `flush_table`. -/
def tableBodyRowParts (row : List String) : List String :=
  "    <tr>" :: (row.map (fun cell => "      <td>" ++ htmlEscape cell ++ "</td>")) ++
    ["    </tr>"]

/-- `flush_table`: the parts it appends (nothing when no rows are
accumulated; otherwise a complete `<table>` whose first accumulated row
is the `<th>` header and whose remaining rows are `<td>` body rows). -/
def flushTableParts (rows : List (List String)) : List String :=
  match rows with
  | [] => []
  | header :: body =>
    "<table>" :: "  <thead>" :: "    <tr>" ::
      (header.map (fun cell => "      <th>" ++ htmlEscape cell ++ "</th>")) ++
      ["    </tr>", "  </thead>", "  <tbody>"] ++
      (body.map tableBodyRowParts).flatten ++
      ["  </tbody>", "</table>"]

/-- `flush_table` as a state transformer (the rows are cleared). -/
def flushTableSt (st : MDState) : MDState :=
  { st with parts := st.parts ++ flushTableParts st.tableRows, tableRows := [] }

/-- `close_lists(0)`: the closing tags, popped from the end of the
stack. -/
def closeListsParts (stack : List String) : List String :=
  stack.reverse.map (fun tag => "</" ++ tag ++ ">")

/-- `close_lists(0)` as a state transformer. -/
def closeListsSt (st : MDState) : MDState :=
  { st with parts := st.parts ++ closeListsParts st.listStack, listStack := [] }

/-- Closing an open blockquote (a no-op when none is open). -/
def closeBqSt (st : MDState) : MDState :=
  if st.inBlockquote then
    { st with parts := st.parts ++ ["</blockquote>"], inBlockquote := false }
  else st

/-- The part of the loop body after the table-row dispatch: blank line,
horizontal rule, heading, blockquote line, list item, or paragraph
accumulation, in the source's order.  `line` is the rstripped line. -/
def handleNonTable (st : MDState) (line : String) : MDState :=
  if pyStrip line = "" then closeBqSt (closeListsSt (flushParagraphSt st))
  else if hrMatch line then
    let st1 := closeBqSt (closeListsSt (flushParagraphSt st))
    { st1 with parts := st1.parts ++ ["<hr>"] }
  else
    match headingMatch line with
    | some (level, g2) =>
      let st1 := closeBqSt (closeListsSt (flushParagraphSt st))
      let content := pyStrip g2
      { st1 with parts := st1.parts ++
          ["<h" ++ decRepr level ++ ">" ++ htmlEscape content ++ "</h" ++ decRepr level ++ ">"] }
    | none =>
      match bqMatch line with
      | some g1 =>
        let st1 := closeListsSt (flushParagraphSt st)
        let st2 :=
          if st1.inBlockquote then st1
          else { st1 with parts := st1.parts ++ ["<blockquote>"], inBlockquote := true }
        { st2 with parts := st2.parts ++ ["  <p>" ++ htmlEscape (pyStrip g1) ++ "</p>"] }
      | none =>
        match listMatch line with
        | some (marker, afterMatch) =>
          let list_type := listTypeOf marker
          let st1 :=
            if st.listStack.getLast? = some list_type then st
            else
              let stc := closeListsSt st
              { stc with
                  parts := stc.parts ++ ["<" ++ list_type ++ ">"]
                  listStack := stc.listStack ++ [list_type] }
          let item_text := pyStrip afterMatch
          { st1 with parts := st1.parts ++ ["  <li>" ++ htmlEscape item_text ++ "</li>"] }
        | none => { st with paragraph := st.paragraph ++ [line] }

/-- One iteration of the line loop of `simple_markdown_to_html`. -/
def processLine (st : MDState) (raw : String) : MDState :=
  let line := pyRStrip raw
  if is_table_separator line then st
  else if tableRowMatch line then
    let cells := parse_table_row line
    if cells.isEmpty then
      handleNonTable st line
    else
      let st1 :=
        if st.inTable then st
        else { (closeBqSt (closeListsSt (flushParagraphSt st))) with inTable := true }
      { st1 with tableRows := st1.tableRows ++ [cells] }
  else
    let st1 := if st.inTable then { (flushTableSt st) with inTable := false } else st
    handleNonTable st1 line

/-- The flushes performed after the loop (open table first, then
paragraph, lists and blockquote), as a state transformer.  (The
`inTable := false` update does not affect the emitted parts; it aligns
this transformer with the state reached after a flushing line.) -/
def endFlushSt (st : MDState) : MDState :=
  closeBqSt (closeListsSt (flushParagraphSt
    (if st.inTable then { flushTableSt st with inTable := false } else st)))

/-- The flushes performed after the loop (open table first, then
paragraph, lists and blockquote), yielding the final parts list. -/
def finalizeParts (st : MDState) : List String := (endFlushSt st).parts

/-- The parts emitted for a list of (raw) input lines. -/
def renderLineParts (ls : List String) : List String :=
  finalizeParts (ls.foldl processLine initState)

/-- The parts emitted for an input text. -/
def renderParts (text : String) : List String :=
  renderLineParts (pySplitlines text)

/-- `simple_markdown_to_html`. -/
def simple_markdown_to_html (text : String) : String :=
  joinNl (renderParts text)

/-! ### Front matter: `parse_front_matter` and `extract_meta`

The script stores `json.loads(value)` results in the metadata mapping
when a bracketed value parses as JSON; `JVal` models the JSON values
the standard parser can return.  JSON numbers are kept as their source
tokens (their numeric value is never inspected by the script), and
`\uXXXX` escapes for lone surrogates (unrepresentable in a Lean
`Char`) are treated as parse failures. -/

/-- A JSON value, as returned by `json.loads`. -/
inductive JVal where
  | jstr : String → JVal
  | jnum : String → JVal
  | jbool : Bool → JVal
  | jnull : JVal
  | jarr : List JVal → JVal
  | jobj : List (String × JVal) → JVal

/-- JSON whitespace. -/
def jsonWs (c : Char) : Bool := c = ' ' || c = '\t' || c = '\n' || c = '\r'

/-- Value of a hexadecimal digit, if any. -/
def hexVal? (c : Char) : Option Nat :=
  if '0' ≤ c && c ≤ '9' then some (c.toNat - 48)
  else if 'a' ≤ c && c ≤ 'f' then some (c.toNat - 87)
  else if 'A' ≤ c && c ≤ 'F' then some (c.toNat - 55)
  else none

/-- Parse the body of a JSON string (after the opening quote), handling
the escape sequences of the JSON grammar; rejects raw control
characters, unknown escapes and surrogate `\uXXXX` escapes. -/
def jsonStringBody : List Char → Option (List Char × List Char)
  | [] => none
  | '"' :: r => some ([], r)
  | '\\' :: 'u' :: h1 :: h2 :: h3 :: h4 :: r => do
    let v1 ← hexVal? h1
    let v2 ← hexVal? h2
    let v3 ← hexVal? h3
    let v4 ← hexVal? h4
    let n := ((v1 * 16 + v2) * 16 + v3) * 16 + v4
    if 0xd800 ≤ n && n ≤ 0xdfff then none
    else do
      let (s, rest) ← jsonStringBody r
      some (Char.ofNat n :: s, rest)
  | '\\' :: e :: r => do
    let c ←
      if e = '"' then some '"'
      else if e = '\\' then some '\\'
      else if e = '/' then some '/'
      else if e = 'b' then some (Char.ofNat 8)
      else if e = 'f' then some (Char.ofNat 12)
      else if e = 'n' then some '\n'
      else if e = 'r' then some '\r'
      else if e = 't' then some '\t'
      else none
    let (s, rest) ← jsonStringBody r
    some (c :: s, rest)
  | c :: r =>
    if c.toNat < 32 then none
    else do
      let (s, rest) ← jsonStringBody r
      some (c :: s, rest)

/-- Parse a JSON number token (starting at a digit or `-`), returning
the token characters and the remainder. -/
def jsonNumberToken (l : List Char) : Option (List Char × List Char) :=
  let (neg, l1) := match l with
    | '-' :: r => (['-'], r)
    | _ => (([] : List Char), l)
  match l1 with
  | '0' :: r => some (neg ++ ['0'], r)
  | c :: _ =>
    if pyDigit c then
      some (neg ++ l1.takeWhile pyDigit, l1.dropWhile pyDigit)
    else none
  | [] => none

/-- Parse the optional fraction and exponent of a JSON number. -/
def jsonFracExp (l : List Char) : Option (List Char × List Char) :=
  let (frac, l1) :=
    match l with
    | '.' :: r =>
      if (r.takeWhile pyDigit).isEmpty then (none, l)
      else (some ('.' :: r.takeWhile pyDigit), r.dropWhile pyDigit)
    | _ => (none, l)
  match frac with
  | none =>
    match l with
    | '.' :: _ => none
    | _ => jsonExpPart l1
  | some f => (jsonExpPart l1).map (fun (e, rest) => (f ++ e, rest))
where
  /-- Parse the optional exponent part. -/
  jsonExpPart (l : List Char) : Option (List Char × List Char) :=
    match l with
    | c :: r =>
      if c = 'e' || c = 'E' then
        let (sgn, r1) := match r with
          | '+' :: r2 => (['+'], r2)
          | '-' :: r2 => (['-'], r2)
          | _ => (([] : List Char), r)
        if (r1.takeWhile pyDigit).isEmpty then none
        else some (c :: sgn ++ r1.takeWhile pyDigit, r1.dropWhile pyDigit)
      else some ([], l)
    | [] => some ([], [])

mutual

/-- Fueled parser for a JSON value (fuel bounds the nesting depth plus
element count; `jsonLoads?` supplies enough for any input). -/
def jsonVal : Nat → List Char → Option (JVal × List Char)
  | 0, _ => none
  | fuel + 1, l =>
    match l.dropWhile jsonWs with
    | '"' :: r => (jsonStringBody r).map (fun (s, rest) => (JVal.jstr ⟨s⟩, rest))
    | 't' :: 'r' :: 'u' :: 'e' :: r => some (JVal.jbool true, r)
    | 'f' :: 'a' :: 'l' :: 's' :: 'e' :: r => some (JVal.jbool false, r)
    | 'n' :: 'u' :: 'l' :: 'l' :: r => some (JVal.jnull, r)
    | '[' :: r =>
      (match (r.dropWhile jsonWs) with
       | ']' :: r2 => some (JVal.jarr [], r2)
       | _ => (jsonArrItems fuel r).map (fun (xs, rest) => (JVal.jarr xs, rest)))
    | '{' :: r =>
      (match (r.dropWhile jsonWs) with
       | '}' :: r2 => some (JVal.jobj [], r2)
       | _ => (jsonObjItems fuel r).map (fun (xs, rest) => (JVal.jobj xs, rest)))
    | c :: r =>
      if c = '-' || pyDigit c then do
        let (tok, r1) ← jsonNumberToken (c :: r)
        let (tok2, r2) ← jsonFracExp r1
        some (JVal.jnum ⟨tok ++ tok2⟩, r2)
      else none
    | [] => none

/-- Fueled parser for the non-empty item list of a JSON array (after
the opening bracket). -/
def jsonArrItems : Nat → List Char → Option (List JVal × List Char)
  | 0, _ => none
  | fuel + 1, l => do
    let (v, r) ← jsonVal fuel l
    match r.dropWhile jsonWs with
    | ',' :: r2 => (jsonArrItems fuel r2).map (fun (xs, rest) => (v :: xs, rest))
    | ']' :: r2 => some ([v], r2)
    | _ => none

/-- Fueled parser for the non-empty member list of a JSON object (after
the opening brace). -/
def jsonObjItems : Nat → List Char → Option (List (String × JVal) × List Char)
  | 0, _ => none
  | fuel + 1, l =>
    match l.dropWhile jsonWs with
    | '"' :: r => do
      let (k, r1) ← jsonStringBody r
      match r1.dropWhile jsonWs with
      | ':' :: r2 => do
        let (v, r3) ← jsonVal fuel r2
        match r3.dropWhile jsonWs with
        | ',' :: r4 => (jsonObjItems fuel r4).map (fun (xs, rest) => ((⟨k⟩, v) :: xs, rest))
        | '\x7d' :: r4 => some ([(⟨k⟩, v)], r4)
        | _ => none
      | _ => none
    | _ => none

end

/-- `json.loads(s)`: parse a complete JSON document (the whole string
must be consumed up to trailing whitespace). -/
def jsonLoads? (s : String) : Option JVal := do
  let (v, rest) ← jsonVal (2 * s.length + 2) s.data
  if (rest.dropWhile jsonWs).isEmpty then some v else none

/-- A value of the metadata mapping built by `parse_front_matter` /
`extract_meta`: a plain string, a list of strings (from the comma-split
fallback or the blockquote tag pass), or a parsed JSON value. -/
inductive MetaValue where
  | vstr : String → MetaValue
  | vstrs : List String → MetaValue
  | vjson : JVal → MetaValue

/-- Python-dict insertion: replace the value of an existing key in
place, otherwise append the pair. -/
def setKey : List (String × MetaValue) → String → MetaValue → List (String × MetaValue)
  | [], k, v => [(k, v)]
  | (k0, v0) :: rest, k, v =>
    if k0 = k then (k, v) :: rest else (k0, v0) :: setKey rest k v

/-- Python-dict lookup. -/
def getKey? (m : List (String × MetaValue)) (k : String) : Option MetaValue :=
  match m with
  | [] => none
  | (k0, v0) :: rest => if k0 = k then some v0 else getKey? rest k

/-- Characters allowed after the first character of a front-matter key
(`[A-Za-z0-9_-]`). -/
def fmKeyChar (c : Char) : Bool :=
  ('A' ≤ c && c ≤ 'Z') || ('a' ≤ c && c ≤ 'z') || ('0' ≤ c && c ≤ '9') ||
  c = '_' || c = '-'

/-- `FRONT_MATTER_PATTERN = ^(?P<key>[A-Za-z_][A-Za-z0-9_-]*):\s*(?P<value>.+)$`
applied (as in the script) to the stripped line; returns the key group
and the value group. -/
def fmMatch (line : String) : Option (String × String) :=
  match stripL line.data with
  | c :: rest =>
    if ('A' ≤ c && c ≤ 'Z') || ('a' ≤ c && c ≤ 'z') || c = '_' then
      let key := c :: rest.takeWhile fmKeyChar
      match rest.dropWhile fmKeyChar with
      | ':' :: after =>
        match after.dropWhile pyWs with
        | [] => none
        | v => some (⟨key⟩, ⟨v⟩)
      | _ => none
    else none
  | [] => none

/-- ASCII lowercasing (`str.lower` restricted to the ASCII range; all
front-matter keys consist of ASCII characters). -/
def pyLowerAscii (s : String) : String :=
  ⟨s.data.map (fun c => if 'A' ≤ c && c ≤ 'Z' then Char.ofNat (c.toNat + 32) else c)⟩

/-- `value.startswith("[") and value.endswith("]")`. -/
def isBracketed (s : String) : Bool :=
  match s.data with
  | c :: rest => c = '[' && ((c :: rest).getLast? == some ']')
  | [] => false

/-- The value stored for one front-matter `key: value` line: a
bracketed value is tried as JSON; on failure it is stripped of brackets
and split on the comma-like delimiters (empty pieces dropped, each
piece stripped); otherwise the raw value string is stored. -/
def fmValueOf (value : String) : MetaValue :=
  if isBracketed value then
    match jsonLoads? value with
    | some v => MetaValue.vjson v
    | none =>
      MetaValue.vstrs
        (((commaSplit (pyStripChars (fun c => c = '[' || c = ']') value)).map pyStrip).filter
          (fun t => !(t = "")))
  else MetaValue.vstr value

/-- `parse_front_matter`: fold the `key: value` lines into a metadata
mapping (non-matching lines are skipped; keys are lowercased; values
are stripped before classification). -/
def parse_front_matter (lines : List String) : List (String × MetaValue) :=
  lines.foldl
    (fun meta line =>
      match fmMatch line with
      | none => meta
      | some (key, value) => setKey meta (pyLowerAscii key) (fmValueOf (pyStrip value)))
    []

/-- Does `sub` occur as a contiguous substring of `l` (Python's `in`
operator on strings)? -/
def containsSub (l sub : List Char) : Bool :=
  match l with
  | [] => sub.isEmpty
  | _ :: rest => sub.isPrefixOf l || containsSub rest sub

/-- Python `needle in hay` for strings. -/
def pyIn (needle hay : String) : Bool := containsSub hay.data needle.data

/-- Try to match `DATE_PATTERN = (\d{4}-\d{2}-\d{2})` at the head of a
character list. -/
def dateHere? (l : List Char) : Option (List Char) :=
  match l with
  | a :: b :: c :: d :: '-' :: e :: f :: '-' :: g :: h :: _ =>
    if pyDigit a && pyDigit b && pyDigit c && pyDigit d && pyDigit e && pyDigit f &&
        pyDigit g && pyDigit h then
      some [a, b, c, d, '-', e, f, '-', g, h]
    else none
  | _ => none

/-- `DATE_PATTERN.search`: the leftmost match of `\d{4}-\d{2}-\d{2}`. -/
def dateSearch? (l : List Char) : Option String :=
  match l with
  | [] => none
  | _ :: rest =>
    match dateHere? l with
    | some m => some ⟨m⟩
    | none => dateSearch? rest

/-- `clean.split("：", 1)[-1]`: the text after the first fullwidth
colon, or the whole string if there is none. -/
def afterFullColon (s : String) : String :=
  afterFullColonL s.data
where
  /-- List-level worker. -/
  afterFullColonL : List Char → String
    | [] => ""
    | c :: rest => if c.toNat = 0xff1a then ⟨rest⟩ else afterFullColonL rest

/-- One line of the blockquote metadata pass of `extract_meta`:
a line starting (after `lstrip`) with `>` is stripped of leading `>`
and spaces, then fills `date`, `tags` and `summary` from label
substrings, each only if not already set. -/
def bqMetaLine (meta : List (String × MetaValue)) (line : String) :
    List (String × MetaValue) :=
  if !((pyLStrip line).startsWith ">") then meta
  else
    let clean : String := ⟨line.data.dropWhile (fun c => c = '>' || c = ' ')⟩
    let meta :=
      if pyIn "日期" clean && (getKey? meta "date").isNone then
        match dateSearch? clean.data with
        | some d => setKey meta "date" (MetaValue.vstr d)
        | none => meta
      else meta
    let meta :=
      if pyIn "标签" clean && (getKey? meta "tags").isNone then
        setKey meta "tags"
          (MetaValue.vstrs
            (((commaSplit (afterFullColon clean)).map pyStrip).filter (fun t => !(t = ""))))
      else meta
    if pyIn "摘要" clean && (getKey? meta "summary").isNone then
      setKey meta "summary" (MetaValue.vstr (pyStrip (afterFullColon clean)))
    else meta

/-- The passes of `extract_meta` that run after the front-matter block
is split off: title resolution (front matter → first `# ` heading →
filename stem), the blockquote metadata pass, and the empty-tags
default. -/
def metaPostPass (meta : List (String × MetaValue)) (body_lines : List String)
    (stem : String) : List (String × MetaValue) :=
  let meta :=
    if (getKey? meta "title").isNone then
      match body_lines.find? (fun l => l.startsWith "# ") with
      | some l => setKey meta "title" (MetaValue.vstr (pyStrip (l.drop 2)))
      | none => setKey meta "title" (MetaValue.vstr stem)
    else meta
  let meta := body_lines.foldl bqMetaLine meta
  if (getKey? meta "tags").isNone then setKey meta "tags" (MetaValue.vstrs []) else meta

/-- `extract_meta`: split a document into its metadata mapping and its
body text.  If the first line strips to `---`, all following lines up
to the next such line form the front-matter block and the body starts
after the closing delimiter.  (`stem` is `path.stem`.) -/
def extract_meta (text : String) (stem : String) :
    List (String × MetaValue) × String :=
  let lines := pySplitlines text
  let hasFM : Bool :=
    match lines.head? with
    | some l0 => pyStrip l0 == "---"
    | none => false
  let front_lines :=
    if hasFM then (lines.drop 1).takeWhile (fun l => !(pyStrip l == "---")) else []
  let body_lines :=
    if hasFM then ((lines.drop 1).dropWhile (fun l => !(pyStrip l == "---"))).drop 1
    else lines
  let meta := if hasFM then parse_front_matter front_lines else []
  (metaPostPass meta body_lines stem, joinNl body_lines)

/-! ### Slug generation (`_normalize_slug`, `slugify`) -/

/-- The composite `unicodedata.normalize("NFKD", text).encode("ascii",
"ignore").decode("ascii").lower()` stage of `_normalize_slug`.  NFKD is
the identity on ASCII text and the ASCII encode with `"ignore"` drops
every non-ASCII code point, so the composite is modelled as: keep the
ASCII characters (lowercased), drop the rest.  (The NFKD decomposition
table for non-ASCII compatibility characters is not reproduced: on
inputs containing such characters the model may drop characters whose
decomposition has an ASCII part.  Every claim proved below is
insensitive to the exact output of this stage.) -/
def nfkdAsciiLower (s : String) : List Char :=
  (s.data.filter (fun c => c.toNat < 128)).map
    (fun c => if 'A' ≤ c && c ≤ 'Z' then Char.ofNat (c.toNat + 32) else c)

/-- The slug alphabet `[a-z0-9-]`. -/
def slugChar (c : Char) : Bool :=
  ('a' ≤ c && c ≤ 'z') || ('0' ≤ c && c ≤ '9') || c = '-'

/-- `NON_ASCII_PATTERN.sub("-", text)`: every character outside the
slug alphabet becomes a hyphen. -/
def subNonSlug (l : List Char) : List Char :=
  l.map (fun c => if slugChar c then c else '-')

/-- `MULTI_HYPHEN_PATTERN.sub("-", text)`: collapse every run of
hyphens to a single hyphen. -/
def collapseHyphens : List Char → List Char
  | [] => []
  | [c] => [c]
  | c :: d :: rest =>
    if c = '-' && d = '-' then collapseHyphens (d :: rest)
    else c :: collapseHyphens (d :: rest)

/-- `text.strip("-")`. -/
def stripHyphens (l : List Char) : List Char :=
  rdropWhile (fun c => c = '-') (l.dropWhile (fun c => c = '-'))

/-- `_normalize_slug`. -/
def _normalize_slug (s : String) : String :=
  ⟨stripHyphens (collapseHyphens (subNonSlug (nfkdAsciiLower s)))⟩

/-- UTF-8 encoding of one character (`str.encode("utf-8")`; the
`"ignore"` error handler never fires, since a Lean `Char` is always a
Unicode scalar value). -/
def utf8Bytes (c : Char) : List Nat :=
  let n := c.toNat
  if n < 0x80 then [n]
  else if n < 0x800 then [0xc0 + n / 64, 0x80 + n % 64]
  else if n < 0x10000 then [0xe0 + n / 4096, 0x80 + n / 64 % 64, 0x80 + n % 64]
  else [0xf0 + n / 262144, 0x80 + n / 4096 % 64, 0x80 + n / 64 % 64, 0x80 + n % 64]

/-- One lowercase hexadecimal digit (`0`-`9`, then `a`-`f`). -/
def hexDigitChar (n : Nat) : Char :=
  if n % 16 < 10 then Char.ofNat (48 + n % 16) else Char.ofNat (87 + n % 16)

/-- `bytes.hex()`: two lowercase hex digits per byte. -/
def bytesHex (bs : List Nat) : List Char :=
  bs.flatMap (fun b => [hexDigitChar (b / 16), hexDigitChar b])

/-- `value.encode("utf-8", "ignore").hex()`. -/
def utf8Hex (s : String) : List Char := bytesHex (s.data.flatMap utf8Bytes)

/-- `slugify(value, fallback_seed, sequence)`.  The sequence number is
modelled as a natural number: the script passes the positive
`enumerate(..., start=1)` index. -/
def slugify (value : String) (fallback_seed : String) (sequence : Nat) : String :=
  let primary := _normalize_slug value
  if primary ≠ "" then primary
  else
    let fallback := _normalize_slug fallback_seed
    if fallback ≠ "" then fallback
    else
      let hash_part : String := ⟨(utf8Hex fallback_seed).take 8⟩
      if hash_part ≠ "" then "note-" ++ hash_part
      else "note-" ++ fmt03 sequence

/-! ### Dates and the `Note` record -/

/-- Leap-year test of the proleptic Gregorian calendar
(`datetime`'s calendar). -/
def isLeap (y : Nat) : Bool := y % 4 = 0 && (y % 100 ≠ 0 || y % 400 = 0)

/-- Days in a month. -/
def daysInMonth (y m : Nat) : Nat :=
  if m = 2 then (if isLeap y then 29 else 28)
  else if m = 4 || m = 6 || m = 9 || m = 11 then 30
  else 31

/-- Numeric value of an ASCII digit character. -/
def digitVal (c : Char) : Nat := c.toNat - 48

/-- `datetime.strptime(s, "%Y-%m-%d")`, as `Option (year, month, day)`:
exactly four digits, `-`, one or two digits, `-`, one or two digits,
end of string (with `\d\d` preferred over `\d` as in CPython's
`_strptime` regex), followed by `datetime`'s range validation.  Returns
`none` exactly when the CPython call raises `ValueError`. -/
def strptimeYMD (s : String) : Option (Nat × Nat × Nat) :=
  match s.data with
  | a :: b :: c :: d :: '-' :: rest =>
    if pyDigit a && pyDigit b && pyDigit c && pyDigit d then
      let y := ((digitVal a * 10 + digitVal b) * 10 + digitVal c) * 10 + digitVal d
      match rest with
      | e :: f :: r2 =>
        if pyDigit e then
          if pyDigit f then
            match r2 with
            | '-' :: r3 => finishDay y (digitVal e * 10 + digitVal f) r3
            | _ => none
          else if f = '-' then finishDay y (digitVal e) r2
          else none
        else none
      | _ => none
    else none
  | _ => none
where
  /-- Parse the day part (one or two digits, end of string) and
  validate ranges as `datetime(year, month, day)` does. -/
  finishDay (y m : Nat) (l : List Char) : Option (Nat × Nat × Nat) :=
    match l with
    | [g] =>
      if pyDigit g then validate y m (digitVal g) else none
    | [g, h] =>
      if pyDigit g && pyDigit h then validate y m (digitVal g * 10 + digitVal h)
      else none
    | _ => none
  /-- `datetime` constructor range checks. -/
  validate (y m d : Nat) : Option (Nat × Nat × Nat) :=
    if 1 ≤ y && 1 ≤ m && m ≤ 12 && 1 ≤ d && d ≤ daysInMonth y m then some (y, m, d)
    else none

/-- Order-preserving numeric encoding of a `datetime` date
(`y`,`m`,`d` with `m ≤ 12`, `d ≤ 31`, all time components zero):
lexicographic comparison of dates coincides with `<` on this code. -/
def dateCode (y m d : Nat) : Nat := (y * 100 + m) * 100 + d

/-- `datetime.min` (= `datetime(1, 1, 1, 0, 0)`), the sentinel used for
unparseable dates. -/
def dateSentinel : Nat := dateCode 1 1 1

/-- The `sort_index` computed in `Note.__post_init__`. -/
def sortIndexOf (date_display : String) : Nat :=
  match strptimeYMD date_display with
  | some (y, m, d) => dateCode y m d
  | none => dateSentinel

/-- The `Note` dataclass (fields in source order). -/
structure Note where
  sort_index : Nat
  title : String
  date_display : String
  summary : String
  tags : List String
  slug : String
  html_body : String
  category : String
deriving Repr, DecidableEq

/-- `Note(...)` construction including `__post_init__`: `sort_index` is
derived from `date_display` once, at construction. -/
def mkNote (title date_display summary : String) (tags : List String)
    (slug html_body category : String) : Note :=
  { sort_index := sortIndexOf date_display
    title := title
    date_display := date_display
    summary := summary
    tags := tags
    slug := slug
    html_body := html_body
    category := category }

/-! ### Claim-level predicates -/

/-- Adjacent double hyphen test. -/
def hasDoubleHyphen : List Char → Bool
  | [] => false
  | [_] => false
  | a :: b :: rest => (a = '-' && b = '-') || hasDoubleHyphen (b :: rest)

/-- The slug well-formedness contract of the specification: non-empty,
only `[a-z0-9-]`, no leading, trailing or doubled hyphen. -/
def slugOk (s : String) : Bool :=
  !s.data.isEmpty && s.data.all slugChar &&
  !(s.data.head? == some '-') && !(s.data.getLast? == some '-') &&
  !hasDoubleHyphen s.data

/-- The four candidates of the slug fallback chain, in order, as the
specification describes them (an empty candidate stands for a step
that produces nothing). -/
def slugCandidates (value fallback_seed : String) (sequence : Nat) : List String :=
  let hash_part : String := ⟨(utf8Hex fallback_seed).take 8⟩
  [_normalize_slug value,
   _normalize_slug fallback_seed,
   if hash_part = "" then "" else "note-" ++ hash_part,
   "note-" ++ fmt03 sequence]

/-- The fixed structural markup strings the block parser emits. -/
def fixedParts : List String :=
  ["<blockquote>", "</blockquote>", "<ul>", "</ul>", "<ol>", "</ol>", "<hr>",
   "<table>", "  <thead>", "    <tr>", "    </tr>", "  </thead>", "  <tbody>",
   "  </tbody>", "</table>"]

/-- The (opening, closing) tag pairs the block parser wraps escaped
content in. -/
def escTemplates : List (String × String) :=
  [("<p>", "</p>"), ("  <p>", "</p>"), ("  <li>", "</li>"),
   ("      <th>", "</th>"), ("      <td>", "</td>"),
   ("<h1>", "</h1>"), ("<h2>", "</h2>"), ("<h3>", "</h3>"),
   ("<h4>", "</h4>"), ("<h5>", "</h5>"), ("<h6>", "</h6>")]

/-- An output part is safe when it is fixed renderer markup or a
template wrapped around `htmlEscape`d source text: together with
`escapedOkL_htmlEscapeL` this means no `<`, `>` or un-entity-like `&`
of the input survives unescaped. -/
def PartSafe (p : String) : Prop :=
  p ∈ fixedParts ∨ ∃ t ∈ escTemplates, ∃ s : String, p = t.1 ++ htmlEscape s ++ t.2

/-! ## Lemmas about slug normalization -/

theorem subNonSlug_all (l : List Char) : (subNonSlug l).all slugChar = true := by
  simp only [subNonSlug, List.all_map, List.all_eq_true]
  intro c _
  by_cases h : slugChar c = true <;> simp [h]
  decide

theorem collapseHyphens_cons (d : Char) (rest : List Char) :
    ∃ t, collapseHyphens (d :: rest) = d :: t := by
  induction rest generalizing d with
  | nil => exact ⟨[], rfl⟩
  | cons e rest ih =>
    by_cases h : d = '-' && e = '-'
    · obtain ⟨t, ht⟩ := ih e
      refine ⟨t, ?_⟩
      have hd : d = e := by
        cases Bool.and_eq_true_iff.mp h with
        | intro h1 h2 => simp at h1 h2; rw [h1, h2]
      rw [show collapseHyphens (d :: e :: rest) = collapseHyphens (e :: rest) by
        simp [collapseHyphens, h], ht, hd]
    · exact ⟨collapseHyphens (e :: rest), by simp [collapseHyphens, h]⟩

theorem collapseHyphens_subset (l : List Char) :
    ∀ c ∈ collapseHyphens l, c ∈ l := by
  induction l with
  | nil => simp [collapseHyphens]
  | cons d rest ih =>
    intro c hc
    match rest with
    | [] => simpa [collapseHyphens] using hc
    | e :: rest2 =>
      by_cases h : d = '-' && e = '-'
      · rw [show collapseHyphens (d :: e :: rest2) = collapseHyphens (e :: rest2) by
          simp [collapseHyphens, h]] at hc
        exact List.mem_cons_of_mem _ (ih c hc)
      · rw [show collapseHyphens (d :: e :: rest2) = d :: collapseHyphens (e :: rest2) by
          simp [collapseHyphens, h]] at hc
        rcases List.mem_cons.mp hc with h1 | h1
        · exact h1 ▸ List.mem_cons_self _ _
        · exact List.mem_cons_of_mem _ (ih c h1)

theorem collapseHyphens_noDouble (l : List Char) :
    hasDoubleHyphen (collapseHyphens l) = false := by
  induction l with
  | nil => simp [collapseHyphens, hasDoubleHyphen]
  | cons d rest ih =>
    match rest with
    | [] => simp [collapseHyphens, hasDoubleHyphen]
    | e :: rest2 =>
      by_cases h : d = '-' && e = '-'
      · rw [show collapseHyphens (d :: e :: rest2) = collapseHyphens (e :: rest2) by
          simp [collapseHyphens, h]]
        exact ih
      · rw [show collapseHyphens (d :: e :: rest2) = d :: collapseHyphens (e :: rest2) by
          simp [collapseHyphens, h]]
        obtain ⟨t, ht⟩ := collapseHyphens_cons e rest2
        rw [ht]
        have ihe : hasDoubleHyphen (e :: t) = false := ht ▸ ih
        simp only [hasDoubleHyphen, Bool.or_eq_false_iff]
        constructor
        · by_cases hd : d = '-' <;> by_cases he : e = '-' <;> simp_all
        · exact ihe

theorem hasDoubleHyphen_tail (a : Char) (l : List Char)
    (h : hasDoubleHyphen (a :: l) = false) : hasDoubleHyphen l = false := by
  match l with
  | [] => simp [hasDoubleHyphen]
  | b :: rest =>
    simp only [hasDoubleHyphen, Bool.or_eq_false_iff] at h
    exact h.2

theorem hasDoubleHyphen_dropWhile (p : Char → Bool) (l : List Char)
    (h : hasDoubleHyphen l = false) : hasDoubleHyphen (l.dropWhile p) = false := by
  induction l with
  | nil => simpa using h
  | cons a rest ih =>
    by_cases hp : p a = true
    · rw [List.dropWhile_cons_of_pos hp]
      exact ih (hasDoubleHyphen_tail a rest h)
    · rw [List.dropWhile_cons_of_neg (by simpa using hp)]
      exact h

theorem rdropWhile_prefix (p : Char → Bool) (l : List Char) :
    rdropWhile p l <+: l := by
  induction l with
  | nil => simp [rdropWhile]
  | cons c rest ih =>
    match hr : rdropWhile p rest with
    | [] =>
      by_cases hp : p c <;> simp [rdropWhile, hr, hp]
    | d :: t =>
      have : rdropWhile p (c :: rest) = c :: d :: t := by
        simp [rdropWhile, hr]
      rw [this]
      exact (List.prefix_cons_inj c).mpr (hr ▸ ih)

theorem hasDoubleHyphen_prefix {l1 l2 : List Char} (h : l1 <+: l2)
    (h2 : hasDoubleHyphen l2 = false) : hasDoubleHyphen l1 = false := by
  induction l1 generalizing l2 with
  | nil => simp [hasDoubleHyphen]
  | cons a t1 ih =>
    match t1 with
    | [] => simp [hasDoubleHyphen]
    | b :: r1 =>
      obtain ⟨t2', ht2⟩ := h
      subst ht2
      simp only [hasDoubleHyphen, Bool.or_eq_false_iff] at h2 ⊢
      refine ⟨h2.1, ?_⟩
      exact ih ⟨t2', by simp⟩ h2.2

theorem dropWhile_head_neg (p : Char → Bool) (l : List Char) (c : Char) (t : List Char)
    (h : l.dropWhile p = c :: t) : p c = false := by
  induction l with
  | nil => simp at h
  | cons a rest ih =>
    by_cases hp : p a = true
    · rw [List.dropWhile_cons_of_pos hp] at h
      exact ih h
    · rw [List.dropWhile_cons_of_neg (by simpa using hp)] at h
      cases h
      simpa using hp

theorem rdropWhile_head (p : Char → Bool) (l : List Char) (c : Char) (t : List Char)
    (h : rdropWhile p l = c :: t) : ∃ t', l = c :: t' := by
  match l with
  | [] => simp [rdropWhile] at h
  | a :: rest =>
    match hr : rdropWhile p rest with
    | [] =>
      by_cases hp : p a <;> simp [rdropWhile, hr, hp] at h
      · exact ⟨rest, by rw [h.1]⟩
    | d :: t2 =>
      have : rdropWhile p (a :: rest) = a :: d :: t2 := by simp [rdropWhile, hr]
      rw [this] at h
      exact ⟨rest, by rw [(List.cons.injEq _ _ _ _).mp h |>.1]⟩

theorem rdropWhile_getLast (p : Char → Bool) (l : List Char) (x : Char)
    (h : (rdropWhile p l).getLast? = some x) : p x = false := by
  induction l with
  | nil => simp [rdropWhile] at h
  | cons a rest ih =>
    match hr : rdropWhile p rest with
    | [] =>
      by_cases hp : p a = true
      · simp [rdropWhile, hr, hp] at h
      · simp [rdropWhile, hr, hp] at h
        rw [← h]
        simpa using hp
    | d :: t2 =>
      have hstep : rdropWhile p (a :: rest) = a :: d :: t2 := by simp [rdropWhile, hr]
      rw [hstep] at h
      rw [List.getLast?_cons_cons] at h
      exact ih (hr ▸ h)

theorem string_ne_empty_iff (l : List Char) : (⟨l⟩ : String) ≠ "" ↔ l ≠ [] := by
  constructor
  · intro h hl
    exact h (by rw [hl])
  · intro h hl
    exact h (congrArg String.data hl)

theorem stripHyphens_slugOk (l1 : List Char)
    (hall1 : ∀ c ∈ l1, slugChar c = true)
    (hnd1 : hasDoubleHyphen l1 = false)
    (hne : stripHyphens l1 ≠ []) :
    slugOk ⟨stripHyphens l1⟩ = true := by
  have hpre : stripHyphens l1 <+: l1.dropWhile (fun c => c = '-') :=
    rdropWhile_prefix _ _
  have hall : (stripHyphens l1).all slugChar = true := by
    rw [List.all_eq_true]
    intro c hc
    exact hall1 c ((List.dropWhile_sublist _).subset (hpre.subset hc))
  have hnd : hasDoubleHyphen (stripHyphens l1) = false :=
    hasDoubleHyphen_prefix hpre (hasDoubleHyphen_dropWhile _ l1 hnd1)
  obtain ⟨c, t, hct⟩ := List.exists_cons_of_ne_nil hne
  have hchead : ¬(c = '-') := by
    obtain ⟨t', ht'⟩ := rdropWhile_head (fun c => c = '-') _ c t hct
    simpa using dropWhile_head_neg (fun c => c = '-') l1 c t' ht'
  obtain ⟨y, hy⟩ : ∃ y, (stripHyphens l1).getLast? = some y := by
    rw [hct]
    exact ⟨(c :: t).getLast (by simp), List.getLast?_eq_getLast _ (by simp)⟩
  have hylast : ¬(y = '-') := by
    simpa using rdropWhile_getLast (fun c => c = '-')
      (l1.dropWhile (fun c => c = '-')) y hy
  have h1 : (stripHyphens l1).isEmpty = false := by rw [hct]; rfl
  have h2 : ((stripHyphens l1).head? == some '-') = false := by
    rw [hct]
    simp only [List.head?_cons]
    exact beq_eq_false_iff_ne.mpr (fun hx => hchead (Option.some.inj hx))
  have h3 : ((stripHyphens l1).getLast? == some '-') = false := by
    rw [hy]
    exact beq_eq_false_iff_ne.mpr (fun hx => hylast (Option.some.inj hx))
  simp only [slugOk, h1, hall, h2, h3, hnd]
  rfl

theorem normalize_slugOk (s : String) (h : _normalize_slug s ≠ "") :
    slugOk (_normalize_slug s) = true := by
  have hform : _normalize_slug s =
      ⟨stripHyphens (collapseHyphens (subNonSlug (nfkdAsciiLower s)))⟩ := rfl
  rw [hform] at h ⊢
  apply stripHyphens_slugOk
  · intro c hc
    exact (List.all_eq_true.mp (subNonSlug_all (nfkdAsciiLower s))) c
      (collapseHyphens_subset _ c hc)
  · exact collapseHyphens_noDouble _
  · exact (string_ne_empty_iff _).mp h

theorem noHyphen_noDouble (l : List Char) (h : ∀ c ∈ l, ¬(c = '-')) :
    hasDoubleHyphen l = false := by
  induction l with
  | nil => rfl
  | cons a rest ih =>
    match rest with
    | [] => rfl
    | b :: r2 =>
      simp only [hasDoubleHyphen, Bool.or_eq_false_iff]
      refine ⟨?_, ih (fun c hc => h c (List.mem_cons_of_mem _ hc))⟩
      have hb : ¬(b = '-') := h b (by simp)
      simp [hb]

theorem slugOk_note (xs : List Char) (hne : xs ≠ [])
    (hx : ∀ c ∈ xs, slugChar c = true ∧ ¬(c = '-')) :
    slugOk ("note-" ++ (⟨xs⟩ : String)) = true := by
  have hdata : ("note-" ++ (⟨xs⟩ : String)).data =
      'n' :: 'o' :: 't' :: 'e' :: '-' :: xs := rfl
  obtain ⟨c, t, hct⟩ := List.exists_cons_of_ne_nil hne
  have hc := hx c (by rw [hct]; simp)
  have hall : ('n' :: 'o' :: 't' :: 'e' :: '-' :: xs).all slugChar = true := by
    simp only [List.all_cons, Bool.and_eq_true]
    refine ⟨by decide, by decide, by decide, by decide, by decide, ?_⟩
    rw [List.all_eq_true]
    exact fun c hcm => (hx c hcm).1
  have hlast : ('n' :: 'o' :: 't' :: 'e' :: '-' :: xs).getLast? = xs.getLast? := by
    rw [hct]
    rfl
  obtain ⟨y, hy⟩ : ∃ y, xs.getLast? = some y := by
    rw [hct]
    exact ⟨(c :: t).getLast (by simp), List.getLast?_eq_getLast _ (by simp)⟩
  have hymem : y ∈ xs := by
    have : xs.getLast (by rw [hct]; simp) = y := by
      have := List.getLast?_eq_getLast xs (by rw [hct]; simp)
      rw [hy] at this
      exact (Option.some.inj this).symm
    rw [← this]
    exact List.getLast_mem _
  have hnd : hasDoubleHyphen ('n' :: 'o' :: 't' :: 'e' :: '-' :: xs) = false := by
    rw [hct]
    have hcnot : ¬(c = '-') := (hx c (by rw [hct]; simp)).2
    have hrest : hasDoubleHyphen (c :: t) = false :=
      noHyphen_noDouble _ (fun d hd => (hx d (by rw [hct]; exact hd)).2)
    simp [hasDoubleHyphen, hcnot, hrest]
  have hyne : ¬(y = '-') := (hx y hymem).2
  have hc1 : ('n' :: 'o' :: 't' :: 'e' :: '-' :: xs).isEmpty = false := rfl
  have hc2 : (('n' :: 'o' :: 't' :: 'e' :: '-' :: xs).head? == some '-') = false := by
    rw [List.head?_cons]
    decide
  have hc3 : (('n' :: 'o' :: 't' :: 'e' :: '-' :: xs).getLast? == some '-') = false := by
    rw [hlast, hy]
    exact beq_eq_false_iff_ne.mpr (fun hxx => hyne (Option.some.inj hxx))
  simp only [slugOk, hdata, hc1, hall, hc2, hc3, hnd]
  rfl

theorem hexDigitChar_spec (n : Nat) :
    slugChar (hexDigitChar n) = true ∧ ¬(hexDigitChar n = '-') := by
  have h16 : n % 16 < 16 := Nat.mod_lt _ (by norm_num)
  unfold hexDigitChar
  generalize n % 16 = k at h16
  interval_cases k <;> exact ⟨by decide, by decide⟩

theorem utf8Hex_spec (s : String) :
    ∀ c ∈ utf8Hex s, slugChar c = true ∧ ¬(c = '-') := by
  intro c hc
  unfold utf8Hex bytesHex at hc
  obtain ⟨b, _, hcb⟩ := List.mem_flatMap.mp hc
  simp only [List.mem_cons, List.not_mem_nil, or_false] at hcb
  rcases hcb with h | h <;> exact h ▸ hexDigitChar_spec _

theorem decDigitsAux_spec (fuel n : Nat) :
    ∀ c ∈ decDigitsAux fuel n, slugChar c = true ∧ ¬(c = '-') := by
  induction fuel generalizing n with
  | zero => simp [decDigitsAux]
  | succ fuel ih =>
    intro c hc
    by_cases h10 : n < 10
    · simp only [decDigitsAux, if_pos h10, List.mem_singleton] at hc
      subst hc
      interval_cases n <;> exact ⟨by decide, by decide⟩
    · simp only [decDigitsAux, if_neg h10, List.mem_append, List.mem_singleton] at hc
      rcases hc with h | h
      · exact ih _ c h
      · subst h
        have hm : n % 10 < 10 := Nat.mod_lt _ (by norm_num)
        generalize n % 10 = k at hm ⊢
        interval_cases k <;> exact ⟨by decide, by decide⟩

theorem decDigitsAux_ne_nil (fuel n : Nat) : decDigitsAux (fuel + 1) n ≠ [] := by
  by_cases h10 : n < 10
  · simp [decDigitsAux, if_pos h10]
  · simp [decDigitsAux, if_neg h10]

theorem fmt03_spec (n : Nat) :
    (fmt03 n).data ≠ [] ∧ ∀ c ∈ (fmt03 n).data, slugChar c = true ∧ ¬(c = '-') := by
  constructor
  · have := decDigitsAux_ne_nil n n
    simp only [fmt03, decRepr]
    intro h
    rcases List.append_eq_nil.mp h with ⟨_, h2⟩
    exact this h2
  · intro c hc
    simp only [fmt03, decRepr] at hc
    rcases List.mem_append.mp hc with h | h
    · have : c = '0' := List.eq_of_mem_replicate h
      subst this
      exact ⟨by decide, by decide⟩
    · exact decDigitsAux_spec _ _ c h

/-- `slugify` always returns a well-formed slug (helper for C3). -/
theorem slugify_totality_aux (value fallback_seed : String) (sequence : Nat) :
    slugOk (slugify value fallback_seed sequence) = true := by
  unfold slugify
  by_cases h1 : _normalize_slug value ≠ ""
  · simpa [h1] using normalize_slugOk value h1
  · by_cases h2 : _normalize_slug fallback_seed ≠ ""
    · simpa [h1, h2] using normalize_slugOk fallback_seed h2
    · by_cases h3 : (⟨(utf8Hex fallback_seed).take 8⟩ : String) ≠ ""
      · have hxs : (utf8Hex fallback_seed).take 8 ≠ [] := (string_ne_empty_iff _).mp h3
        have := slugOk_note ((utf8Hex fallback_seed).take 8) hxs
          (fun c hc => utf8Hex_spec fallback_seed c (List.take_subset _ _ hc))
        simpa [h1, h2, h3] using this
      · have := slugOk_note (fmt03 sequence).data (fmt03_spec sequence).1
          (fun c hc => (fmt03_spec sequence).2 c hc)
        have hfm : ("note-" ++ (⟨(fmt03 sequence).data⟩ : String)) =
            "note-" ++ fmt03 sequence := rfl
        rw [hfm] at this
        simpa [h1, h2, h3] using this

theorem note_append_ne_empty (s : String) : ("note-" ++ s) ≠ "" := by
  intro h
  have : ("note-" ++ s).data = [] := congrArg String.data h
  rw [show ("note-" ++ s).data = 'n' :: 'o' :: 't' :: 'e' :: '-' :: s.data from rfl] at this
  cases this

/-- The fallback chain of `slugify`, as a first-non-empty-candidate
search (helper for C4). -/
theorem slugify_chain_aux (value fallback_seed : String) (sequence : Nat) :
    List.find? (fun s => !(s == "")) (slugCandidates value fallback_seed sequence) =
      some (slugify value fallback_seed sequence) := by
  unfold slugCandidates slugify
  have hb4 : (("note-" ++ fmt03 sequence) == "") = false :=
    beq_eq_false_iff_ne.mpr (note_append_ne_empty _)
  have hb3 : (("note-" ++ (⟨(utf8Hex fallback_seed).take 8⟩ : String)) == "") = false :=
    beq_eq_false_iff_ne.mpr (note_append_ne_empty _)
  by_cases h1 : _normalize_slug value = ""
  · by_cases h2 : _normalize_slug fallback_seed = ""
    · by_cases h3 : (⟨(utf8Hex fallback_seed).take 8⟩ : String) = ""
      · simp [List.find?, h1, h2, h3, hb4]
      · simp [List.find?, h1, h2, h3, hb4, hb3]
    · have hbn : (_normalize_slug fallback_seed == "") = false :=
        beq_eq_false_iff_ne.mpr h2
      simp [List.find?, h1, h2, hbn]
  · have hbv : (_normalize_slug value == "") = false := beq_eq_false_iff_ne.mpr h1
    simp [List.find?, hbv, h1]


theorem daysInMonth_le_31 (y m : Nat) : daysInMonth y m ≤ 31 := by
  unfold daysInMonth
  split_ifs <;> omega

theorem validate_bounds (y m d y2 m2 d2 : Nat)
    (h : strptimeYMD.validate y m d = some (y2, m2, d2)) :
    y2 = y ∧ m2 = m ∧ d2 = d ∧ 1 ≤ y ∧ 1 ≤ m ∧ m ≤ 12 ∧ 1 ≤ d ∧ d ≤ 31 := by
  unfold strptimeYMD.validate at h
  split_ifs at h with hc
  simp only [Option.some.injEq, Prod.mk.injEq] at h
  simp only [Bool.and_eq_true, decide_eq_true_eq] at hc
  have h31 := daysInMonth_le_31 y m
  exact ⟨h.1.symm, h.2.1.symm, h.2.2.symm, by omega, by omega, by omega, by omega, by omega⟩

theorem finishDay_bounds (y m : Nat) (l : List Char) (y2 m2 d2 : Nat)
    (h : strptimeYMD.finishDay y m l = some (y2, m2, d2)) :
    y2 = y ∧ m2 = m ∧ 1 ≤ y ∧ 1 ≤ m ∧ m ≤ 12 ∧ 1 ≤ d2 ∧ d2 ≤ 31 := by
  unfold strptimeYMD.finishDay at h
  split at h
  · split_ifs at h
    obtain ⟨e1, e2, e3, b⟩ := validate_bounds _ _ _ _ _ _ h
    exact ⟨e1, e2, b.1, b.2.1, b.2.2.1, e3 ▸ b.2.2.2.1, e3 ▸ b.2.2.2.2⟩
  · split_ifs at h
    obtain ⟨e1, e2, e3, b⟩ := validate_bounds _ _ _ _ _ _ h
    exact ⟨e1, e2, b.1, b.2.1, b.2.2.1, e3 ▸ b.2.2.2.1, e3 ▸ b.2.2.2.2⟩
  · cases h

theorem strptimeYMD_bounds (s : String) (y m d : Nat)
    (h : strptimeYMD s = some (y, m, d)) :
    1 ≤ y ∧ 1 ≤ m ∧ m ≤ 12 ∧ 1 ≤ d ∧ d ≤ 31 := by
  unfold strptimeYMD at h
  split at h
  · split_ifs at h
    · split at h
      · split_ifs at h
        · split at h
          · obtain ⟨e1, e2, b⟩ := finishDay_bounds _ _ _ _ _ _ h
            exact ⟨e1 ▸ b.1, e2 ▸ b.2.1, e2 ▸ b.2.2.1, b.2.2.2.1, b.2.2.2.2⟩
          · cases h
        · obtain ⟨e1, e2, b⟩ := finishDay_bounds _ _ _ _ _ _ h
          exact ⟨e1 ▸ b.1, e2 ▸ b.2.1, e2 ▸ b.2.2.1, b.2.2.2.1, b.2.2.2.2⟩
      · cases h
  · cases h

theorem sortIndexOf_none (s : String) (h : strptimeYMD s = none) :
    sortIndexOf s = dateSentinel := by
  unfold sortIndexOf
  rw [h]

theorem sortIndexOf_some_ge (s : String) (y m d : Nat)
    (h : strptimeYMD s = some (y, m, d)) : dateSentinel ≤ sortIndexOf s := by
  have b := strptimeYMD_bounds s y m d h
  unfold sortIndexOf
  rw [h]
  simp only [dateSentinel, dateCode]
  omega

theorem sortIndexOf_some_gt (s : String) (y m d : Nat)
    (h : strptimeYMD s = some (y, m, d)) (hne : ¬(y = 1 ∧ m = 1 ∧ d = 1)) :
    dateSentinel < sortIndexOf s := by
  have b := strptimeYMD_bounds s y m d h
  unfold sortIndexOf
  rw [h]
  simp only [dateSentinel, dateCode]
  omega

/-- Helper for C10: a front-matter opener with no closing delimiter
consumes every remaining line as a `key: value` candidate, and the body
is empty. -/
theorem extract_meta_unclosed_aux (text stem l0 : String) (ls : List String)
    (hsplit : pySplitlines text = l0 :: ls)
    (h0 : pyStrip l0 = "---")
    (hrest : ∀ l ∈ ls, pyStrip l ≠ "---") :
    extract_meta text stem = (metaPostPass (parse_front_matter ls) [] stem, "") := by
  unfold extract_meta
  rw [hsplit]
  have hfm : (pyStrip l0 == "---") = true := beq_iff_eq.mpr h0
  have htw : ls.takeWhile (fun l => !(pyStrip l == "---")) = ls := by
    rw [List.takeWhile_eq_self_iff]
    intro a ha
    simpa using beq_eq_false_iff_ne.mpr (hrest a ha)
  have hdw : ls.dropWhile (fun l => !(pyStrip l == "---")) = [] := by
    rw [List.dropWhile_eq_nil_iff]
    intro a ha
    simpa using beq_eq_false_iff_ne.mpr (hrest a ha)
  simp only [List.head?_cons, hfm, if_pos, List.drop_succ_cons, List.drop_zero,
    htw, hdw, joinNl, List.drop_nil]

/-! ## Lemmas about the block parser -/

theorem rdropWhile_cons_ne (p : Char → Bool) (c : Char) (rest : List Char)
    (h : p c = false) : ∃ t, rdropWhile p (c :: rest) = c :: t := by
  match hr : rdropWhile p rest with
  | [] => exact ⟨[], by simp [rdropWhile, hr, h]⟩
  | d :: t2 => exact ⟨d :: t2, by simp [rdropWhile, hr]⟩

theorem mem_of_getLast? {l : List Char} {x : Char} (h : l.getLast? = some x) :
    x ∈ l := by
  induction l with
  | nil => simp at h
  | cons a rest ih =>
    match rest with
    | [] =>
      simp only [List.getLast?_singleton, Option.some.injEq] at h
      simp [h]
    | b :: r2 =>
      rw [List.getLast?_cons_cons] at h
      exact List.mem_cons_of_mem _ (ih h)

/-- A horizontal-rule line: its stripped form starts with the rule
character. -/
theorem hrMatch_strip (line : String) (h : hrMatch line = true) :
    ∃ c t, stripL line.data = c :: t ∧ (c = '-' ∨ c = '*' ∨ c = '_') := by
  unfold hrMatch at h
  split at h
  case h_2 => cases h
  case h_1 c1 rest1 heq =>
    split_ifs at h with hc
    have hcw : pyWs c1 = false := by
      rcases Bool.or_eq_true_iff.mp hc with hx | hx
      · rcases Bool.or_eq_true_iff.mp hx with hy | hy <;>
          · simp only [decide_eq_true_eq] at hy
            subst hy
            decide
      · simp only [decide_eq_true_eq] at hx
        subst hx
        decide
    obtain ⟨t, ht⟩ := rdropWhile_cons_ne pyWs c1 rest1 hcw
    refine ⟨c1, t, ?_, ?_⟩
    · rw [show stripL line.data = rstripL (line.data.dropWhile pyWs) from rfl, heq]
      exact ht
    · rcases Bool.or_eq_true_iff.mp hc with hx | hx
      · rcases Bool.or_eq_true_iff.mp hx with hy | hy
        · exact Or.inl (by simpa using hy)
        · exact Or.inr (Or.inl (by simpa using hy))
      · exact Or.inr (Or.inr (by simpa using hx))

theorem tableRowMatch_false_of_head (line : String) (c : Char) (t : List Char)
    (hs : stripL line.data = c :: t) (hc : ¬(c = '|')) :
    tableRowMatch line = false := by
  unfold tableRowMatch
  rw [hs]
  simp [hc]

theorem is_table_separator_false_of_head (line : String) (c : Char) (t : List Char)
    (hs : stripL line.data = c :: t) (hc : ¬(c = '|')) :
    is_table_separator line = false := by
  unfold is_table_separator
  rw [hs]
  simp [hc]

theorem pyStrip_ne_empty_of_cons (line : String) (c : Char) (t : List Char)
    (hs : stripL line.data = c :: t) : ¬(pyStrip line = "") := by
  intro h
  have : stripL line.data = [] := congrArg String.data h
  rw [hs] at this
  cases this

/-- A table-separator line is consumed without any effect on the
state. -/
theorem processLine_sep (st : MDState) (raw : String)
    (h : is_table_separator (pyRStrip raw) = true) : processLine st raw = st := by
  unfold processLine
  simp [h]

theorem endFlushSt_fields (st : MDState) :
    (endFlushSt st).paragraph = [] ∧ (endFlushSt st).listStack = [] ∧
      (endFlushSt st).inBlockquote = false ∧ (endFlushSt st).inTable = false := by
  unfold endFlushSt closeBqSt closeListsSt flushParagraphSt flushTableSt
  by_cases ht : st.inTable <;> simp [ht] <;> split_ifs <;> simp_all

/-- Flushing a state that is already fully flushed emits nothing. -/
theorem endFlushSt_clean (st : MDState) (h1 : st.paragraph = [])
    (h2 : st.listStack = []) (h3 : st.inBlockquote = false)
    (h4 : st.inTable = false) : (endFlushSt st).parts = st.parts := by
  unfold endFlushSt closeBqSt closeListsSt flushParagraphSt flushTableSt
  simp [h1, h2, h3, h4, flushParagraphParts, closeListsParts]

/-- A horizontal-rule line flushes table, paragraph, lists and
blockquote (in the order of the source) and emits `<hr>`. -/
theorem processLine_hr (st : MDState) (raw : String)
    (h : hrMatch (pyRStrip raw) = true) :
    processLine st raw =
      { endFlushSt st with parts := (endFlushSt st).parts ++ ["<hr>"] } := by
  obtain ⟨c, t, hs, hc⟩ := hrMatch_strip (pyRStrip raw) h
  have hcp : ¬(c = '|') := by rcases hc with h | h | h <;> subst h <;> decide
  have hsep : is_table_separator (pyRStrip raw) = false :=
    is_table_separator_false_of_head _ c t hs hcp
  have hrow : tableRowMatch (pyRStrip raw) = false :=
    tableRowMatch_false_of_head _ c t hs hcp
  have hblank : ¬(pyStrip (pyRStrip raw) = "") := pyStrip_ne_empty_of_cons _ c t hs
  unfold processLine handleNonTable
  simp only [hsep, hrow, Bool.false_eq_true, if_false, if_neg hblank, h, if_true]
  unfold endFlushSt
  by_cases ht : st.inTable <;> simp [ht]

/-- Helper for C6: appending a horizontal-rule line to any document
flushes everything open and appends exactly one `<hr>` part. -/
theorem renderLineParts_hr_aux (ls : List String) (l : String)
    (h : hrMatch (pyRStrip l) = true) :
    renderLineParts (ls ++ [l]) = renderLineParts ls ++ ["<hr>"] := by
  unfold renderLineParts
  rw [List.foldl_append]
  simp only [List.foldl_cons, List.foldl_nil]
  rw [processLine_hr _ _ h]
  unfold finalizeParts
  obtain ⟨hp, hs, hb, ht⟩ := endFlushSt_fields (ls.foldl processLine initState)
  rw [endFlushSt_clean
    { endFlushSt (ls.foldl processLine initState) with
        parts := (endFlushSt (ls.foldl processLine initState)).parts ++ ["<hr>"] }
    (by simpa using hp) (by simpa using hs) (by simpa using hb) (by simpa using ht)]

theorem splitCharAux_length (sep : Char) (l acc : List Char) :
    (splitCharAux sep l acc).length = l.count sep + 1 := by
  induction l generalizing acc with
  | nil => simp [splitCharAux]
  | cons c rest ih =>
    by_cases hc : c = sep
    · subst hc
      simp [splitCharAux, ih, List.count_cons]
    · rw [show splitCharAux sep (c :: rest) acc = splitCharAux sep rest (c :: acc) by
        simp [splitCharAux, hc]]
      rw [ih]
      simp [List.count_cons, hc]

/-- A line matching the table-row pattern always yields at least one
cell. -/
theorem parse_table_row_ne_nil (line : String) (h : tableRowMatch line = true) :
    parse_table_row line ≠ [] := by
  unfold tableRowMatch at h
  split at h
  case h_2 => cases h
  case h_1 c rest heq =>
    simp only [Bool.and_eq_true, decide_eq_true_eq, beq_iff_eq] at h
    obtain ⟨⟨hc, hlen⟩, hlast⟩ := h
    unfold parse_table_row
    rw [heq]
    simp only [if_pos hc]
    intro hcells
    have hmem : '|' ∈ rest := mem_of_getLast? hlast
    have hcount : 1 ≤ rest.count '|' := List.one_le_count_iff.mpr hmem
    have hauxlen : (splitCharAux '|' (c :: rest) []).length = (c :: rest).count '|' + 1 :=
      splitCharAux_length '|' (c :: rest) []
    have hlen2 : ((((splitCharAux '|' (c :: rest) []).drop 1).dropLast).map pyStrip).length =
        (c :: rest).count '|' - 1 := by
      simp [hauxlen]
    rw [hcells] at hlen2
    subst hc
    simp [List.count_cons] at hlen2
    omega

/-- The table invariant: outside a table no rows are pending; inside a
table everything else is flushed and at least one row is pending. -/
def TableInv (st : MDState) : Prop :=
  (st.inTable = false → st.tableRows = []) ∧
  (st.inTable = true →
    st.paragraph = [] ∧ st.listStack = [] ∧ st.inBlockquote = false ∧ st.tableRows ≠ [])

theorem handleNonTable_preserve (st : MDState) (line : String) :
    (handleNonTable st line).inTable = st.inTable ∧
      (handleNonTable st line).tableRows = st.tableRows := by
  unfold handleNonTable closeBqSt closeListsSt flushParagraphSt
  repeat' split
  all_goals simp_all
  all_goals (split_ifs <;> simp_all)

theorem tableInv_init : TableInv initState := by
  constructor <;> simp [initState]

theorem tableInv_processLine (st : MDState) (raw : String) (h : TableInv st) :
    TableInv (processLine st raw) := by
  unfold processLine
  by_cases hsep : is_table_separator (pyRStrip raw) = true
  · simpa [hsep] using h
  simp only [hsep, Bool.false_eq_true, if_false]
  by_cases hrow : tableRowMatch (pyRStrip raw) = true
  · have hne := parse_table_row_ne_nil _ hrow
    have hcells : (parse_table_row (pyRStrip raw)).isEmpty = false := by
      simpa [List.isEmpty_iff] using hne
    cases hti : st.inTable
    · simp only [hrow, if_true, hcells, Bool.false_eq_true, if_false, hti]
      have hrows0 : st.tableRows = [] := h.1 hti
      constructor
      · intro hf
        simp at hf
      · intro _
        refine ⟨?_, ?_, ?_, ?_⟩ <;>
          · simp [closeBqSt, closeListsSt, flushParagraphSt]
            try (split_ifs <;> simp_all [hrows0])
    · simp only [hrow, if_true, hcells, Bool.false_eq_true, if_false, hti, if_true]
      obtain ⟨hp, hs, hb, hr⟩ := h.2 hti
      exact ⟨fun hf => by simp [hti] at hf ⊢, fun _ => ⟨hp, hs, hb, by simp⟩⟩
  · simp only [hrow, Bool.false_eq_true, if_false]
    cases hti : st.inTable
    · simp only [hti, Bool.false_eq_true, if_false]
      obtain ⟨hit, hrows⟩ := handleNonTable_preserve st (pyRStrip raw)
      constructor
      · intro _
        rw [hrows]
        exact h.1 hti
      · intro hf
        rw [hit, hti] at hf
        cases hf
    · simp only [hti, if_true]
      obtain ⟨hit, hrows⟩ :=
        handleNonTable_preserve { flushTableSt st with inTable := false } (pyRStrip raw)
      constructor
      · intro _
        rw [hrows]
        simp [flushTableSt]
      · intro hf
        rw [hit] at hf
        simp at hf

theorem tableInv_foldl_aux (ls : List String) (st : MDState) (h : TableInv st) :
    TableInv (ls.foldl processLine st) := by
  induction ls generalizing st with
  | nil => simpa using h
  | cons l rest ih => exact ih _ (tableInv_processLine st l h)

theorem tableInv_foldl (ls : List String) : TableInv (ls.foldl processLine initState) :=
  tableInv_foldl_aux ls initState tableInv_init

/-- Helper for C7: a document that ends inside an open table still
flushes a complete `<table>` element at end of input. -/
theorem finalize_open_table_aux (ls : List String)
    (h : (ls.foldl processLine initState).inTable = true) :
    ∃ r rs, (ls.foldl processLine initState).tableRows = r :: rs ∧
      renderLineParts ls =
        (ls.foldl processLine initState).parts ++ flushTableParts (r :: rs) := by
  have hinv := tableInv_foldl ls
  obtain ⟨hp, hs, hb, hr⟩ := hinv.2 h
  obtain ⟨r, rs, hrr⟩ := List.exists_cons_of_ne_nil hr
  refine ⟨r, rs, hrr, ?_⟩
  unfold renderLineParts finalizeParts endFlushSt
  rw [← hrr]
  simp [h, hp, hs, hb, closeBqSt, closeListsSt, flushParagraphSt, flushTableSt,
    flushParagraphParts, closeListsParts]

theorem pyDigit_not_ws (c : Char) (h : pyDigit c = true) : pyWs c = false := by
  simp only [pyDigit, Bool.and_eq_true, decide_eq_true_eq] at h
  simp only [pyWs, Bool.or_eq_false_iff, Bool.and_eq_false_iff]
  refine ⟨⟨⟨⟨⟨⟨⟨⟨⟨⟨⟨⟨⟨?_, ?_⟩, ?_⟩, ?_⟩, ?_⟩, ?_⟩, ?_⟩, ?_⟩, ?_⟩, ?_⟩, ?_⟩, ?_⟩, ?_⟩, ?_⟩ <;>
    simp only [decide_eq_false_iff_not] <;> omega

/-- A list-item line: its first non-whitespace character is the
marker. -/
theorem listMatch_head (line : String) (marker after : String)
    (h : listMatch line = some (marker, after)) :
    ∃ c t, line.data.dropWhile pyWs = c :: t ∧
      (c = '*' ∨ c = '+' ∨ c = '-' ∨ pyDigit c = true) := by
  unfold listMatch at h
  split at h
  case h_2 => cases h
  case h_1 c rest heq =>
    refine ⟨c, rest, heq, ?_⟩
    by_cases h1 : c = '*' || c = '+' || c = '-'
    · rcases Bool.or_eq_true_iff.mp h1 with hx | hx
      · rcases Bool.or_eq_true_iff.mp hx with hy | hy
        · exact Or.inl (by simpa using hy)
        · exact Or.inr (Or.inl (by simpa using hy))
      · exact Or.inr (Or.inr (Or.inl (by simpa using hx)))
    · rw [if_neg (by simpa using h1)] at h
      by_cases h2 : pyDigit c = true
      · exact Or.inr (Or.inr (Or.inr h2))
      · rw [if_neg (by simpa using h2)] at h
        cases h

theorem headingMatch_none_of_head (line : String)
    (h : ∀ t, line.data ≠ '#' :: t) : headingMatch line = none := by
  unfold headingMatch
  match hd : line.data with
  | [] => simp
  | c :: t =>
    have hc : ¬(c = '#') := fun hcc => h t (by rw [hd, hcc])
    simp [List.takeWhile_cons, hc]

theorem bqMatch_none_of_head (line : String)
    (h : ∀ t, line.data ≠ '>' :: t) : bqMatch line = none := by
  unfold bqMatch
  match hd : line.data with
  | [] => rfl
  | c :: t =>
    have hc : ¬(c = '>') := fun hcc => h t (by rw [hd, hcc])
    simp [hc]

theorem dropWhile_head_cases (p : Char → Bool) (l : List Char) (c : Char)
    (t : List Char) (h : l.dropWhile p = c :: t) :
    ∃ d t2, l = d :: t2 ∧ (d = c ∨ p d = true) := by
  match l with
  | [] => simp at h
  | d :: t2 =>
    by_cases hp : p d = true
    · exact ⟨d, t2, rfl, Or.inr hp⟩
    · rw [List.dropWhile_cons_of_neg (by simpa using hp)] at h
      exact ⟨d, t2, rfl, Or.inl (List.cons.inj h).1⟩

/-- The dispatch conditions preceding the list-item branch all fail on
a list-item line. -/
theorem listLine_conditions (line marker after : String)
    (h : listMatch line = some (marker, after)) :
    is_table_separator line = false ∧ tableRowMatch line = false ∧
      ¬(pyStrip line = "") ∧ headingMatch line = none ∧ bqMatch line = none := by
  obtain ⟨c, t, hdw, hc⟩ := listMatch_head line marker after h
  have hcw : pyWs c = false := by
    rcases hc with h1 | h1 | h1 | h1
    · subst h1; decide
    · subst h1; decide
    · subst h1; decide
    · exact pyDigit_not_ws c h1
  obtain ⟨t2, ht2⟩ := rdropWhile_cons_ne pyWs c t hcw
  have hstrip : stripL line.data = c :: t2 := by
    rw [show stripL line.data = rstripL (line.data.dropWhile pyWs) from rfl, hdw]
    exact ht2
  have hcpipe : ¬(c = '|') := by
    rcases hc with h1 | h1 | h1 | h1
    · subst h1; decide
    · subst h1; decide
    · subst h1; decide
    · intro he
      rw [he] at h1
      exact absurd h1 (by decide)
  obtain ⟨d, t3, hdt, hd⟩ := dropWhile_head_cases pyWs line.data c t hdw
  have hdhash : ¬(d = '#') := by
    rcases hd with h1 | h1
    · subst h1
      rcases hc with h2 | h2 | h2 | h2
      · subst h2; decide
      · subst h2; decide
      · subst h2; decide
      · intro he
        rw [he] at h2
        exact absurd h2 (by decide)
    · intro he
      rw [he] at h1
      exact absurd h1 (by decide)
  have hdgt : ¬(d = '>') := by
    rcases hd with h1 | h1
    · subst h1
      rcases hc with h2 | h2 | h2 | h2
      · subst h2; decide
      · subst h2; decide
      · subst h2; decide
      · intro he
        rw [he] at h2
        exact absurd h2 (by decide)
    · intro he
      rw [he] at h1
      exact absurd h1 (by decide)
  refine ⟨is_table_separator_false_of_head _ c t2 hstrip hcpipe,
    tableRowMatch_false_of_head _ c t2 hstrip hcpipe,
    pyStrip_ne_empty_of_cons _ c t2 hstrip, ?_, ?_⟩
  · exact headingMatch_none_of_head _ (fun t' ht' => hdhash (by
      rw [hdt] at ht'
      exact (List.cons.inj ht').1))
  · exact bqMatch_none_of_head _ (fun t' ht' => hdgt (by
      rw [hdt] at ht'
      exact (List.cons.inj ht').1))

/-- A list-item line whose type matches the open list appends one
escaped `<li>` element and nothing else. -/
theorem processLine_list_same (st : MDState) (raw marker after : String)
    (hti : st.inTable = false)
    (hl : listMatch (pyRStrip raw) = some (marker, after))
    (hhr : hrMatch (pyRStrip raw) = false)
    (hstack : st.listStack.getLast? = some (listTypeOf marker)) :
    processLine st raw =
      { st with parts := st.parts ++
          ["  <li>" ++ htmlEscape (pyStrip after) ++ "</li>"] } := by
  obtain ⟨hsep, hrow, hblank, hhead, hbq⟩ := listLine_conditions _ _ _ hl
  unfold processLine handleNonTable
  simp only [hsep, hrow, hti, Bool.false_eq_true, if_false, if_neg hblank, hhr,
    hhead, hbq, hl, hstack, if_true]

/-- A list-item line whose type differs from the open list (or arrives
with no list open) closes all open lists, opens a list of the new type
and appends one escaped `<li>` element. -/
theorem processLine_list_new (st : MDState) (raw marker after : String)
    (hti : st.inTable = false)
    (hl : listMatch (pyRStrip raw) = some (marker, after))
    (hhr : hrMatch (pyRStrip raw) = false)
    (hstack : ¬(st.listStack.getLast? = some (listTypeOf marker))) :
    processLine st raw =
      { st with
          parts := st.parts ++ closeListsParts st.listStack ++
            ["<" ++ listTypeOf marker ++ ">",
             "  <li>" ++ htmlEscape (pyStrip after) ++ "</li>"]
          listStack := [listTypeOf marker] } := by
  obtain ⟨hsep, hrow, hblank, hhead, hbq⟩ := listLine_conditions _ _ _ hl
  unfold processLine handleNonTable
  simp only [hsep, hrow, hti, Bool.false_eq_true, if_false, if_neg hblank, hhr,
    hhead, hbq, hl, if_neg hstack, closeListsSt]
  simp

/-! ## Output-safety invariant (C2) -/

/-- Invariant: all emitted parts are safe, and the list stack holds
only `ol`/`ul`. -/
def PartsInv (st : MDState) : Prop :=
  (∀ p ∈ st.parts, PartSafe p) ∧ (∀ t ∈ st.listStack, t = "ol" ∨ t = "ul")

theorem partsInv_append (st : MDState) (new : List String)
    (h : ∀ p ∈ st.parts, PartSafe p) (hnew : ∀ p ∈ new, PartSafe p) :
    ∀ p ∈ st.parts ++ new, PartSafe p := by
  intro p hp
  rcases List.mem_append.mp hp with hp | hp
  · exact h p hp
  · exact hnew p hp

theorem flushParagraphParts_safe (pl : List String) :
    ∀ p ∈ flushParagraphParts pl, PartSafe p := by
  intro p hp
  unfold flushParagraphParts at hp
  by_cases h1 : pl.isEmpty = true
  · simp [h1] at hp
  · simp only [h1, Bool.false_eq_true, if_false] at hp
    by_cases h2 : pyStrip (joinSp pl) = ""
    · simp [h2] at hp
    · simp only [h2, if_false, List.mem_singleton] at hp
      subst hp
      exact Or.inr ⟨("<p>", "</p>"), by simp [escTemplates], pyStrip (joinSp pl), rfl⟩

theorem thCells_safe (header : List String) :
    ∀ p ∈ header.map (fun cell => "      <th>" ++ htmlEscape cell ++ "</th>"),
      PartSafe p := by
  intro p hp
  obtain ⟨cell, _, rfl⟩ := List.mem_map.mp hp
  exact Or.inr ⟨("      <th>", "</th>"), by simp [escTemplates], cell, rfl⟩

theorem tableBodyRowParts_safe (row : List String) :
    ∀ p ∈ tableBodyRowParts row, PartSafe p := by
  intro p hp
  unfold tableBodyRowParts at hp
  rcases List.mem_cons.mp hp with rfl | hp
  · exact Or.inl (by simp [fixedParts])
  rcases List.mem_append.mp hp with hp | hp
  · obtain ⟨cell, _, rfl⟩ := List.mem_map.mp hp
    exact Or.inr ⟨("      <td>", "</td>"), by simp [escTemplates], cell, rfl⟩
  · rcases List.mem_singleton.mp hp with rfl
    exact Or.inl (by simp [fixedParts])

theorem flushTableParts_safe (rows : List (List String)) :
    ∀ p ∈ flushTableParts rows, PartSafe p := by
  intro p hp
  match rows with
  | [] => cases hp
  | header :: body =>
    unfold flushTableParts at hp
    rcases List.mem_cons.mp hp with rfl | hp
    · exact Or.inl (by simp [fixedParts])
    rcases List.mem_cons.mp hp with rfl | hp
    · exact Or.inl (by simp [fixedParts])
    rcases List.mem_cons.mp hp with rfl | hp
    · exact Or.inl (by simp [fixedParts])
    rcases List.mem_append.mp hp with hp | hp
    · rcases List.mem_append.mp hp with hp | hp
      · rcases List.mem_append.mp hp with hp | hp
        · exact thCells_safe header p hp
        · simp only [List.mem_cons, List.not_mem_nil, or_false] at hp
          rcases hp with rfl | rfl | rfl <;> exact Or.inl (by simp [fixedParts])
      · obtain ⟨l2, hl2, hpl⟩ := List.mem_flatten.mp hp
        obtain ⟨row, _, rfl⟩ := List.mem_map.mp hl2
        exact tableBodyRowParts_safe row p hpl
    · simp only [List.mem_cons, List.not_mem_nil, or_false] at hp
      rcases hp with rfl | rfl <;> exact Or.inl (by simp [fixedParts])

theorem closeListsParts_safe (stack : List String)
    (hs : ∀ t ∈ stack, t = "ol" ∨ t = "ul") :
    ∀ p ∈ closeListsParts stack, PartSafe p := by
  intro p hp
  unfold closeListsParts at hp
  obtain ⟨t, ht, rfl⟩ := List.mem_map.mp hp
  rcases hs t (List.mem_reverse.mp ht) with rfl | rfl
  · exact Or.inl (by simp [fixedParts])
  · exact Or.inl (by simp [fixedParts])

theorem partsInv_flushParagraphSt (st : MDState) (h : PartsInv st) :
    PartsInv (flushParagraphSt st) :=
  ⟨partsInv_append st _ h.1 (flushParagraphParts_safe st.paragraph), h.2⟩

theorem partsInv_flushTableSt (st : MDState) (h : PartsInv st) :
    PartsInv (flushTableSt st) :=
  ⟨partsInv_append st _ h.1 (flushTableParts_safe st.tableRows), h.2⟩

theorem partsInv_closeListsSt (st : MDState) (h : PartsInv st) :
    PartsInv (closeListsSt st) :=
  ⟨partsInv_append st _ h.1 (closeListsParts_safe st.listStack h.2), by simp [closeListsSt]⟩

theorem partsInv_closeBqSt (st : MDState) (h : PartsInv st) :
    PartsInv (closeBqSt st) := by
  unfold closeBqSt
  split_ifs with hb
  · exact ⟨partsInv_append st _ h.1
      (by intro p hp; rcases List.mem_singleton.mp hp with rfl
          exact Or.inl (by simp [fixedParts])), h.2⟩
  · exact h

theorem str_eq_of_data (s t : String) (h : s.data = t.data) : s = t := by
  cases s; cases t; cases h; rfl

theorem heading_wrap_eq (d content x y : String)
    (hx : ("<h" ++ d ++ ">" : String) = x) (hy : ("</h" ++ d ++ ">" : String) = y) :
    "<h" ++ d ++ ">" ++ htmlEscape content ++ "</h" ++ d ++ ">" =
      x ++ htmlEscape content ++ y := by
  subst hx
  subst hy
  apply str_eq_of_data
  simp [String.data_append, List.append_assoc]

theorem headingMatch_level (line : String) (lv : Nat) (g2 : String)
    (h : headingMatch line = some (lv, g2)) : 1 ≤ lv ∧ lv ≤ 6 := by
  simp only [headingMatch] at h
  split_ifs at h with hc
  · split at h
    · split_ifs at h
      simp only [Option.some.injEq, Prod.mk.injEq] at h
      simp only [Bool.and_eq_true, decide_eq_true_eq] at hc
      omega
    · cases h

theorem headingPart_safe (lv : Nat) (content : String) (h1 : 1 ≤ lv) (h2 : lv ≤ 6) :
    PartSafe ("<h" ++ decRepr lv ++ ">" ++ htmlEscape content ++
      "</h" ++ decRepr lv ++ ">") := by
  interval_cases lv
  · exact Or.inr ⟨("<h1>", "</h1>"), by simp [escTemplates], content,
      heading_wrap_eq _ content "<h1>" "</h1>" (by decide) (by decide)⟩
  · exact Or.inr ⟨("<h2>", "</h2>"), by simp [escTemplates], content,
      heading_wrap_eq _ content "<h2>" "</h2>" (by decide) (by decide)⟩
  · exact Or.inr ⟨("<h3>", "</h3>"), by simp [escTemplates], content,
      heading_wrap_eq _ content "<h3>" "</h3>" (by decide) (by decide)⟩
  · exact Or.inr ⟨("<h4>", "</h4>"), by simp [escTemplates], content,
      heading_wrap_eq _ content "<h4>" "</h4>" (by decide) (by decide)⟩
  · exact Or.inr ⟨("<h5>", "</h5>"), by simp [escTemplates], content,
      heading_wrap_eq _ content "<h5>" "</h5>" (by decide) (by decide)⟩
  · exact Or.inr ⟨("<h6>", "</h6>"), by simp [escTemplates], content,
      heading_wrap_eq _ content "<h6>" "</h6>" (by decide) (by decide)⟩

theorem partsInv_handleNonTable (st : MDState) (line : String) (h : PartsInv st) :
    PartsInv (handleNonTable st line) := by
  unfold handleNonTable
  by_cases hblank : pyStrip line = ""
  · simp only [hblank, if_pos]
    exact partsInv_closeBqSt _ (partsInv_closeListsSt _ (partsInv_flushParagraphSt _ h))
  simp only [if_neg hblank]
  by_cases hhr : hrMatch line = true
  · simp only [hhr, if_true]
    have hc := partsInv_closeBqSt _ (partsInv_closeListsSt _ (partsInv_flushParagraphSt _ h))
    exact ⟨partsInv_append _ _ hc.1
      (by intro p hp; rcases List.mem_singleton.mp hp with rfl
          exact Or.inl (by simp [fixedParts])), hc.2⟩
  simp only [hhr, Bool.false_eq_true, if_false]
  match hhead : headingMatch line with
  | some (lv, g2) =>
    have hc := partsInv_closeBqSt _ (partsInv_closeListsSt _ (partsInv_flushParagraphSt _ h))
    obtain ⟨hl1, hl2⟩ := headingMatch_level line lv g2 hhead
    exact ⟨partsInv_append _ _ hc.1
      (by intro p hp; rcases List.mem_singleton.mp hp with rfl
          exact headingPart_safe lv (pyStrip g2) hl1 hl2), hc.2⟩
  | none =>
    match hbq : bqMatch line with
    | some g1 =>
      have hc := partsInv_closeListsSt _ (partsInv_flushParagraphSt _ h)
      by_cases hib : (closeListsSt (flushParagraphSt st)).inBlockquote = true
      · simp only [hib, if_pos]
        exact ⟨partsInv_append _ _ hc.1
          (by intro p hp; rcases List.mem_singleton.mp hp with rfl
              exact Or.inr ⟨("  <p>", "</p>"), by simp [escTemplates], pyStrip g1, rfl⟩),
          hc.2⟩
      · simp only [hib, Bool.false_eq_true, if_false]
        have hc2 : ∀ p ∈ (closeListsSt (flushParagraphSt st)).parts ++ ["<blockquote>"],
            PartSafe p := partsInv_append _ _ hc.1
          (by intro p hp; rcases List.mem_singleton.mp hp with rfl
              exact Or.inl (by simp [fixedParts]))
        exact ⟨by
          intro p hp
          simp only [List.append_assoc] at hp
          rcases List.mem_append.mp hp with hp | hp
          · exact hc.1 p hp
          rcases List.mem_append.mp hp with hp | hp
          · rcases List.mem_singleton.mp hp with rfl
            exact Or.inl (by simp [fixedParts])
          · rcases List.mem_singleton.mp hp with rfl
            exact Or.inr ⟨("  <p>", "</p>"), by simp [escTemplates], pyStrip g1, rfl⟩,
          hc.2⟩
    | none =>
      match hlm : listMatch line with
      | some (marker, afterMatch) =>
        by_cases hstack : st.listStack.getLast? = some (listTypeOf marker)
        · simp only [hstack, if_pos]
          refine ⟨partsInv_append _ _ h.1 ?_, h.2⟩
          intro p hp
          rcases List.mem_singleton.mp hp with rfl
          exact Or.inr ⟨("  <li>", "</li>"), by simp [escTemplates],
            pyStrip afterMatch, rfl⟩
        · simp only [hstack, if_neg, if_false]
          have hty : listTypeOf marker = "ol" ∨ listTypeOf marker = "ul" := by
            unfold listTypeOf
            split_ifs <;> simp
          have hc := partsInv_closeListsSt st h
          refine ⟨?_, ?_⟩
          · intro p hp
            simp only [List.append_assoc] at hp
            rcases List.mem_append.mp hp with hp | hp
            · exact hc.1 p hp
            rcases List.mem_append.mp hp with hp | hp
            · rcases List.mem_singleton.mp hp with rfl
              rcases hty with hty | hty <;> rw [hty] <;>
                exact Or.inl (by simp [fixedParts])
            · rcases List.mem_singleton.mp hp with rfl
              exact Or.inr ⟨("  <li>", "</li>"), by simp [escTemplates],
                pyStrip afterMatch, rfl⟩
          · intro t ht
            simp only [closeListsSt, List.nil_append] at ht
            rcases List.mem_singleton.mp ht with rfl
            exact hty
      | none =>
        exact ⟨h.1, h.2⟩

theorem partsInv_processLine (st : MDState) (raw : String) (h : PartsInv st) :
    PartsInv (processLine st raw) := by
  unfold processLine
  by_cases hsep : is_table_separator (pyRStrip raw) = true
  · simpa [hsep] using h
  simp only [hsep, Bool.false_eq_true, if_false]
  by_cases hrow : tableRowMatch (pyRStrip raw) = true
  · simp only [hrow, if_true]
    by_cases hcells : (parse_table_row (pyRStrip raw)).isEmpty = true
    · simp only [hcells, if_pos]
      exact partsInv_handleNonTable _ _ h
    · simp only [hcells, Bool.false_eq_true, if_false]
      cases hti : st.inTable
      · simp only [hti, Bool.false_eq_true, if_false]
        have hc := partsInv_closeBqSt _ (partsInv_closeListsSt _ (partsInv_flushParagraphSt _ h))
        exact ⟨hc.1, hc.2⟩
      · simp only [hti, if_true]
        exact ⟨h.1, h.2⟩
  · simp only [hrow, Bool.false_eq_true, if_false]
    cases hti : st.inTable
    · simp only [hti, Bool.false_eq_true, if_false]
      exact partsInv_handleNonTable _ _ h
    · simp only [hti, if_true]
      have hc := partsInv_flushTableSt st h
      exact partsInv_handleNonTable _ _ ⟨hc.1, hc.2⟩

theorem partsInv_init : PartsInv initState := by
  constructor <;> simp [initState]

theorem partsInv_foldl (ls : List String) (st : MDState) (h : PartsInv st) :
    PartsInv (ls.foldl processLine st) := by
  induction ls generalizing st with
  | nil => simpa using h
  | cons l rest ih => exact ih _ (partsInv_processLine st l h)

/-- Helper for C2: every part of the final output is safe. -/
theorem renderParts_safe_aux (text : String) :
    ∀ p ∈ renderParts text, PartSafe p := by
  have hinv : PartsInv ((pySplitlines text).foldl processLine initState) :=
    partsInv_foldl _ _ partsInv_init
  intro p hp
  unfold renderParts renderLineParts finalizeParts endFlushSt at hp
  set st := (pySplitlines text).foldl processLine initState
  have h1 : PartsInv (if st.inTable then { flushTableSt st with inTable := false } else st) := by
    split_ifs with ht
    · have := partsInv_flushTableSt st hinv
      exact ⟨this.1, this.2⟩
    · exact hinv
  have h2 := partsInv_closeBqSt _ (partsInv_closeListsSt _ (partsInv_flushParagraphSt _ h1))
  exact h2.1 p hp

theorem flushParagraphParts_shape (pl : List String) :
    ∀ p ∈ flushParagraphParts pl, ∃ s, p = "<p>" ++ htmlEscape s ++ "</p>" := by
  intro p hp
  unfold flushParagraphParts at hp
  by_cases h1 : pl.isEmpty = true
  · simp [h1] at hp
  · simp only [h1, Bool.false_eq_true, if_false] at hp
    by_cases h2 : pyStrip (joinSp pl) = ""
    · simp [h2] at hp
    · simp only [h2, if_false, List.mem_singleton] at hp
      exact ⟨pyStrip (joinSp pl), hp⟩

/-! ## Claim theorems -/

/-- C1 (counterexample): the renderer has no link inliner.  The
paragraph `[a](http://x)` is emitted as escaped literal text: the
output is exactly the bracket/parenthesis text inside `<p>` and
contains no anchor markup `<a`. -/
theorem claim_C1_counterexample :
    simple_markdown_to_html "[a](http://x)" = "<p>[a](http://x)</p>" ∧
      pyIn "<a" (simple_markdown_to_html "[a](http://x)") = false := by
  constructor
  · decide
  · decide

/-- C1 (amended): for every paragraph and every list-item line the
rendered text is HTML-escaped in full; `[label](url)` spans are not
recognized and appear as literal escaped text, and no anchor markup
can occur (escaped text never contains `<`).  Concretely,
`[a](http://x)` renders as a literal paragraph. -/
theorem claim_C1_amended :
    (∀ pl p, p ∈ flushParagraphParts pl → ∃ s, p = "<p>" ++ htmlEscape s ++ "</p>") ∧
    (∀ st raw marker after, st.inTable = false →
      listMatch (pyRStrip raw) = some (marker, after) →
      hrMatch (pyRStrip raw) = false →
      st.listStack.getLast? = some (listTypeOf marker) →
      processLine st raw =
        { st with parts := st.parts ++
            ["  <li>" ++ htmlEscape (pyStrip after) ++ "</li>"] }) ∧
    (∀ s : String, '<' ∉ (htmlEscape s).data) ∧
    simple_markdown_to_html "[a](http://x)" = "<p>[a](http://x)</p>" := by
  refine ⟨flushParagraphParts_shape, ?_, ?_, by decide⟩
  · intro st raw marker after hti hl hhr hstack
    exact processLine_list_same st raw marker after hti hl hhr hstack
  · intro s
    exact lt_not_mem_htmlEscapeL s.data

/-- C1 (witness for the amended theorem). -/
theorem claim_C1_amended_witness :
    (∃ s, "<p>hi</p>" = "<p>" ++ htmlEscape s ++ "</p>") ∧
      processLine ⟨[], ["ul"], false, [], [], false⟩ "- x" =
        ⟨["  <li>x</li>"], ["ul"], false, [], [], false⟩ := by
  constructor
  · exact claim_C1_amended.1 ["hi"] "<p>hi</p>" (by decide)
  · have h := claim_C1_amended.2.1 ⟨[], ["ul"], false, [], [], false⟩ "- x" "-" "x"
      (by decide) (by decide) (by decide) (by decide)
    rw [h]
    decide

/-- C2: every part of the rendered output is fixed renderer markup or a
template wrapped around `htmlEscape`d source text, and escaped text
contains no raw `<` or `>` and only entity-forming `&`: no unescaped
special character of the input reaches the output. -/
theorem claim_C2_escaping :
    (∀ text p, p ∈ renderParts text → PartSafe p) ∧
      (∀ s : String, escapedOkL (htmlEscape s).data = true) := by
  constructor
  · exact fun text => renderParts_safe_aux text
  · exact fun s => escapedOkL_htmlEscapeL s.data

/-- C2 (witness). -/
theorem claim_C2_escaping_witness :
    PartSafe "<p>&lt;script&gt;</p>" ∧
      escapedOkL (htmlEscape "<&>\"").data = true := by
  constructor
  · exact claim_C2_escaping.1 "<script>" "<p>&lt;script&gt;</p>" (by decide)
  · exact claim_C2_escaping.2 "<&>\""

/-- C3: `slugify` is total and always returns a non-empty string over
`[a-z0-9-]` with no leading, trailing or doubled hyphen. -/
theorem claim_C3_slugify_total (value fallback_seed : String) (sequence : Nat) :
    slugOk (slugify value fallback_seed sequence) = true :=
  slugify_totality_aux value fallback_seed sequence

/-- C4 (counterexample): with `fallback_seed = "!"` both normalization
steps produce the empty string and the fingerprint step wins, but its
fingerprint is `21` — two hex characters, not eight: no 8-character
string can be split off the result `note-21`. -/
theorem claim_C4_counterexample :
    _normalize_slug "" = "" ∧ _normalize_slug "!" = "" ∧
      slugify "" "!" 7 = "note-21" ∧
      ¬∃ h8 : String, h8.length = 8 ∧ slugify "" "!" 7 = "note-" ++ h8 := by
  refine ⟨by decide, by decide, by decide, ?_⟩
  rintro ⟨h8, hlen, heq⟩
  have h7 : (slugify "" "!" 7).length = 7 := by decide
  rw [heq] at h7
  simp [String.length_append] at h7
  omega

/-- C4 (amended): `slugify` is exactly the first non-empty candidate of
the four-step chain: normalized primary seed, normalized fallback
seed, `note-` plus the first (up to) eight hex digits of the fallback
seed's UTF-8 encoding, and `note-NNN` from the sequence number. -/
theorem claim_C4_amended (value fallback_seed : String) (sequence : Nat) :
    List.find? (fun s => !(s == "")) (slugCandidates value fallback_seed sequence) =
      some (slugify value fallback_seed sequence) :=
  slugify_chain_aux value fallback_seed sequence

/-- C5 (counterexample): the unbracketed form `tags: a,b` is stored as
the raw string `"a,b"`, not split into the sequence `["a", "b"]`. -/
theorem claim_C5_counterexample :
    getKey? (parse_front_matter ["tags: a,b"]) "tags" =
        some (MetaValue.vstr "a,b") ∧
      MetaValue.vstr "a,b" ≠ MetaValue.vstrs ["a", "b"] := by
  constructor
  · rfl
  · intro h
    cases h

/-- C5 (amended): a bracketed `tags: [a, b]` value is first tried as
JSON and, on JSON failure, comma-split (ASCII, fullwidth and
ideographic commas) into `["a", "b"]`; a valid JSON array is stored as
parsed JSON; the unbracketed `tags: a,b` value is stored as the raw
string `"a,b"`, unsplit. -/
theorem claim_C5_amended :
    getKey? (parse_front_matter ["tags: [a, b]"]) "tags" =
        some (MetaValue.vstrs ["a", "b"]) ∧
      getKey? (parse_front_matter ["tags: [\"a\", \"b\"]"]) "tags" =
        some (MetaValue.vjson (JVal.jarr [JVal.jstr "a", JVal.jstr "b"])) ∧
      getKey? (parse_front_matter ["tags: a,b"]) "tags" =
        some (MetaValue.vstr "a,b") := by
  refine ⟨rfl, rfl, rfl⟩

/-- C6 (counterexample): the rule pattern matches exactly three
repeated characters, so the four-hyphen line `----` is rendered as a
paragraph, not as a horizontal rule. -/
theorem claim_C6_counterexample :
    simple_markdown_to_html "----" = "<p>----</p>" ∧
      ¬(simple_markdown_to_html "----" = "<hr>") := by
  constructor
  · decide
  · decide

/-- C6 (amended): a line of exactly three repeated `-`, `*` or `_`
characters (possibly space-separated, matching the source's
three-repetition pattern) flushes any open paragraph, list, blockquote
or table and emits exactly one `<hr>` part; `---` renders as a rule
while the four-character line `----` renders as paragraph text. -/
theorem claim_C6_amended :
    (∀ ls l, hrMatch (pyRStrip l) = true →
      renderLineParts (ls ++ [l]) = renderLineParts ls ++ ["<hr>"]) ∧
      simple_markdown_to_html "---" = "<hr>" ∧
      simple_markdown_to_html "----" = "<p>----</p>" := by
  refine ⟨?_, by decide, by decide⟩
  intro ls l h
  exact renderLineParts_hr_aux ls l h

/-- C6 (witness for the amended theorem). -/
theorem claim_C6_amended_witness :
    renderLineParts (["x"] ++ ["---"]) = renderLineParts ["x"] ++ ["<hr>"] :=
  claim_C6_amended.1 ["x"] "---" (by decide)

/-- C7: a separator row is consumed without effect; the first
accumulated row is rendered as the `<th>` header and all later rows as
`<td>` body rows inside a complete `<table>`; encountering a
non-table-row line while inside a table flushes (closes) the table
before the line is handled; and a document ending inside an open table
still flushes a complete `<table>`.  The spec's three-line example
renders to the expected table. -/
theorem claim_C7_tables :
    (∀ st raw, is_table_separator (pyRStrip raw) = true → processLine st raw = st) ∧
    (∀ header body, flushTableParts (header :: body) =
      "<table>" :: "  <thead>" :: "    <tr>" ::
        (header.map (fun cell => "      <th>" ++ htmlEscape cell ++ "</th>")) ++
        ["    </tr>", "  </thead>", "  <tbody>"] ++
        (body.map tableBodyRowParts).flatten ++ ["  </tbody>", "</table>"]) ∧
    (∀ st raw, is_table_separator (pyRStrip raw) = false →
      tableRowMatch (pyRStrip raw) = false → st.inTable = true →
      processLine st raw =
        handleNonTable { flushTableSt st with inTable := false } (pyRStrip raw)) ∧
    (∀ ls, (ls.foldl processLine initState).inTable = true →
      ∃ r rs, (ls.foldl processLine initState).tableRows = r :: rs ∧
        renderLineParts ls =
          (ls.foldl processLine initState).parts ++ flushTableParts (r :: rs)) ∧
    simple_markdown_to_html "| A | B |\n| - | - |\n| 1 | 2 |" =
      "<table>\n  <thead>\n    <tr>\n      <th>A</th>\n      <th>B</th>\n    </tr>\n  </thead>\n  <tbody>\n    <tr>\n      <td>1</td>\n      <td>2</td>\n    </tr>\n  </tbody>\n</table>" := by
  refine ⟨processLine_sep, fun header body => rfl, ?_, finalize_open_table_aux, by decide⟩
  intro st raw hsep hrow hti
  unfold processLine
  simp [hsep, hrow, hti]

/-- C7 (witness). -/
theorem claim_C7_tables_witness :
    processLine ⟨[], [], false, [], [["A"]], true⟩ "| - |" =
        ⟨[], [], false, [], [["A"]], true⟩ ∧
      (∃ r rs, ((["| A |"].foldl processLine initState)).tableRows = r :: rs ∧
        renderLineParts ["| A |"] =
          (["| A |"].foldl processLine initState).parts ++ flushTableParts (r :: rs)) := by
  constructor
  · exact claim_C7_tables.1 ⟨[], [], false, [], [["A"]], true⟩ "| - |" (by decide)
  · exact claim_C7_tables.2.2.2.1 ["| A |"] (by decide)

/-- C8: the list type is fixed by the current item's marker: a matching
marker type appends an `<li>` to the open list, while a differing
marker type closes every open list and opens a fresh list of the new
type — the runs are never merged.  The spec's mixed-marker example
renders as two separate lists. -/
theorem claim_C8_lists :
    (∀ st raw marker after, st.inTable = false →
      listMatch (pyRStrip raw) = some (marker, after) →
      hrMatch (pyRStrip raw) = false →
      st.listStack.getLast? = some (listTypeOf marker) →
      processLine st raw =
        { st with parts := st.parts ++
            ["  <li>" ++ htmlEscape (pyStrip after) ++ "</li>"] }) ∧
    (∀ st raw marker after, st.inTable = false →
      listMatch (pyRStrip raw) = some (marker, after) →
      hrMatch (pyRStrip raw) = false →
      ¬(st.listStack.getLast? = some (listTypeOf marker)) →
      processLine st raw =
        { st with
            parts := st.parts ++ closeListsParts st.listStack ++
              ["<" ++ listTypeOf marker ++ ">",
               "  <li>" ++ htmlEscape (pyStrip after) ++ "</li>"]
            listStack := [listTypeOf marker] }) ∧
    simple_markdown_to_html "- item1\n1. item2" =
      "<ul>\n  <li>item1</li>\n</ul>\n<ol>\n  <li>item2</li>\n</ol>" := by
  exact ⟨processLine_list_same, processLine_list_new, by decide⟩

/-- C8 (witness). -/
theorem claim_C8_lists_witness :
    processLine ⟨[], ["ul"], false, [], [], false⟩ "+ y" =
        ⟨["  <li>y</li>"], ["ul"], false, [], [], false⟩ ∧
      processLine ⟨[], ["ul"], false, [], [], false⟩ "1. z" =
        ⟨["</ul>", "<ol>", "  <li>z</li>"], ["ol"], false, [], [], false⟩ := by
  constructor
  · have h := claim_C8_lists.1 ⟨[], ["ul"], false, [], [], false⟩ "+ y" "+" "y"
      (by decide) (by decide) (by decide) (by decide)
    rw [h]
    decide
  · have h := claim_C8_lists.2.1 ⟨[], ["ul"], false, [], [], false⟩ "1. z" "1." "z"
      (by decide) (by decide) (by decide) (by decide)
    rw [h]
    decide

/-- C9 (counterexample): the claim's sentinel is `datetime.min`
(`0001-01-01`), and the parseable date string `0001-01-01` maps to
exactly that value — so the sentinel of an unparseable string is not
strictly before the sort key of every record with a parseable date. -/
theorem claim_C9_counterexample :
    strptimeYMD "nope" = none ∧ strptimeYMD "0001-01-01" = some (1, 1, 1) ∧
      sortIndexOf "nope" = sortIndexOf "0001-01-01" ∧
      ¬(sortIndexOf "nope" < sortIndexOf "0001-01-01") := by
  refine ⟨by decide, by decide, by decide, by decide⟩

/-- C9 (amended): the sort key is computed once at construction by
parsing `date_display` against `YYYY-MM-DD`; an unparseable string
takes the `datetime.min` sentinel, which is ordered before or equal to
the key of every parseable date and strictly before every parseable
date other than `0001-01-01` itself; the `date_display` string is
preserved unchanged. -/
theorem claim_C9_amended :
    (∀ title date_display summary tags slug html_body category,
      (mkNote title date_display summary tags slug html_body category).date_display =
          date_display ∧
        (mkNote title date_display summary tags slug html_body category).sort_index =
          sortIndexOf date_display) ∧
    (∀ dd, strptimeYMD dd = none → sortIndexOf dd = dateSentinel) ∧
    (∀ dd y m d, strptimeYMD dd = some (y, m, d) → dateSentinel ≤ sortIndexOf dd) ∧
    (∀ dd y m d, strptimeYMD dd = some (y, m, d) → ¬(y = 1 ∧ m = 1 ∧ d = 1) →
      dateSentinel < sortIndexOf dd) := by
  refine ⟨?_, sortIndexOf_none, sortIndexOf_some_ge, sortIndexOf_some_gt⟩
  intro title date_display summary tags slug html_body category
  exact ⟨rfl, rfl⟩

/-- C9 (witness for the amended theorem). -/
theorem claim_C9_amended_witness :
    sortIndexOf "未注明日期" = dateSentinel ∧
      dateSentinel ≤ sortIndexOf "2024-05-06" ∧
      dateSentinel < sortIndexOf "2024-05-06" := by
  refine ⟨?_, ?_, ?_⟩
  · exact claim_C9_amended.2.1 "未注明日期" (by decide)
  · exact claim_C9_amended.2.2.1 "2024-05-06" 2024 5 6 (by decide)
  · exact claim_C9_amended.2.2.2 "2024-05-06" 2024 5 6 (by decide) (by decide)

/-- C10: a document whose first line strips to `---` with no later
`---` line has every remaining line consumed as a front-matter
`key: value` candidate and an empty body: no line of the document is
left to render as content. -/
theorem claim_C10_unclosed_front_matter (text stem l0 : String) (ls : List String)
    (hsplit : pySplitlines text = l0 :: ls)
    (h0 : pyStrip l0 = "---")
    (hrest : ∀ l ∈ ls, pyStrip l ≠ "---") :
    extract_meta text stem = (metaPostPass (parse_front_matter ls) [] stem, "") :=
  extract_meta_unclosed_aux text stem l0 ls hsplit h0 hrest

/-- C10 (witness). -/
theorem claim_C10_unclosed_front_matter_witness :
    extract_meta "---\na: b" "stem" =
      (metaPostPass (parse_front_matter ["a: b"]) [] "stem", "") := by
  exact claim_C10_unclosed_front_matter "---\na: b" "stem" "---" ["a: b"]
    (by decide) (by decide) (by decide)

end BuildNotes
